import Mathlib

/-!
# mt-sgemm: the SGEMM micro-benchmark driver and its reference kernel

A shallow embedding of `src/mt-sgemm.c` (built without `USE_MKL`, `USE_CBLAS`
or `USE_ESSL`, so that the reference triple loop is the multiply kernel).

* C `float` and `double` are IEEE-754 binary32 and binary64 with the default
  rounding (to nearest, ties to even); every operation is rounded to the type
  C gives it.  A value is the rational number it denotes, the rounding is
  `roundTo 24` resp. `roundTo 53`.  The exponent range is not bounded and a
  division by zero is not given an infinity: the model agrees with the
  hardware as long as no result leaves the normal range, which holds for every
  value computed in the statements about `float` below.
* A buffer obtained from `malloc` is a map from element offsets to values.
  An offset `i*N + j` is computed as the source computes it, on 32-bit `int`:
  an access whose offset overflows or lies outside the buffer has no result
  (undefined behaviour), and neither has the loop it stands in.
* The OpenMP pragmas are not interpreted in the embedding of the driver: its
  loops run in program order, which is the build without OpenMP.  The parallel
  region of the kernel is modelled separately (`stepWorker`, `runRegion`),
  with the variables the pragma leaves shared.
* What `atoi` and `atof` return on each argument and what the three `malloc`
  calls return are inputs of the model.  The clock is not modelled: the two
  report lines computed from it carry no value.
-/

namespace MtSgemm

/-! ## Floating-point arithmetic -/

/-- Nearest integer, a tie going to the even neighbour. -/
def roundHalfEven (x : ℚ) : ℤ :=
  let f := ⌊x⌋
  if x - f < 1 / 2 then f
  else if 1 / 2 < x - f then f + 1
  else if f % 2 = 0 then f else f + 1

/-- Rounding of an exact value to `p` significant binary digits, to nearest
with ties to even: `x` is scaled so that its integer part has `p` bits,
rounded to an integer, and scaled back. -/
def roundTo (p : ℕ) (x : ℚ) : ℚ :=
  if x = 0 then 0
  else
    let s : ℤ := Int.log 2 |x| - ((p : ℤ) - 1)
    (roundHalfEven (x / (2 : ℚ) ^ s) : ℚ) * (2 : ℚ) ^ s

/-- A floating-point number with a `p`-bit significand, given by the rational
it denotes. -/
structure Fl (p : ℕ) where
  val : ℚ
deriving DecidableEq

/-- C `float`. -/
abbrev F32 := Fl 24

/-- C `double`. -/
abbrev F64 := Fl 53

namespace Fl

variable {p : ℕ}

/-- The float nearest to an exact value.  The exponent is not bounded: a
value beyond the largest float is not turned into an infinity and a value
below the smallest normal float is not flushed, so this is the conversion of
the hardware only for results in the normal range. -/
def ofRat (q : ℚ) : Fl p := ⟨roundTo p q⟩

/-- Conversion of a C `int` (also of an integer constant or of `sizeof`). -/
def ofInt (z : ℤ) : Fl p := ofRat (z : ℚ)

/-- Conversion between formats: `(float) d`, and the promotion of a `float`
operand of a `double` operation. -/
def cast {q : ℕ} (x : Fl p) : Fl q := ofRat x.val

instance : Zero (Fl p) := ⟨⟨0⟩⟩

instance : Add (Fl p) := ⟨fun a b => ofRat (a.val + b.val)⟩

instance : Sub (Fl p) := ⟨fun a b => ofRat (a.val - b.val)⟩

instance : Mul (Fl p) := ⟨fun a b => ofRat (a.val * b.val)⟩

instance : Div (Fl p) := ⟨fun a b => ofRat (a.val / b.val)⟩

/-- A decimal constant such as `2.0` or `0.5`, rounded to the format. -/
instance : OfScientific (Fl p) :=
  ⟨fun m s e => ofRat (OfScientific.ofScientific m s e : ℚ)⟩

end Fl

/-- The float that denotes the natural number `n`. -/
def natF (p : ℕ) (n : ℕ) : Fl p := ⟨(n : ℚ)⟩

/-! ## Loops -/

/-- The loop `for (i = 0; i < n; i++) s = body i s`. -/
def forLoop {σ : Type} (n : ℕ) (body : ℕ → σ → σ) (s : σ) : σ :=
  match n with
  | 0 => s
  | k + 1 => body k (forLoop k body s)

/-- The loop `for (i = 0; i < n; i++) s = body i s` whose body may have no
result: the loop then has none either. -/
def forLoopM {σ : Type} (n : ℕ) (body : ℕ → σ → Option σ) (s : σ) : Option σ :=
  match n with
  | 0 => some s
  | k + 1 => (forLoopM k body s).bind (body k)

/-! ## Offsets as the machine computes them -/

/-- The largest value of a C `int` (32 bits). -/
def INT_MAX : ℤ := 2 ^ 31 - 1

/-- The smallest value of a C `int` (32 bits). -/
def INT_MIN : ℤ := -(2 ^ 31)

/-- An `int` operation whose exact result is `z`: the result when it is an
`int`, nothing when the operation overflows (undefined behaviour). -/
def intResult (z : ℤ) : Option ℤ :=
  if INT_MIN ≤ z ∧ z ≤ INT_MAX then some z else none

/-- The C expression `i*N + j` on `int` operands: the product, then the
sum. -/
def offsetInt (i N j : ℤ) : Option ℤ :=
  (intResult (i * N)).bind (fun p => intResult (p + j))

/-- The number of `float` elements in a block of `bytes` bytes. -/
def bufferLength (bytes : ℕ) : ℕ := bytes / 4

/-- The element that `buf[i*N + j]` denotes in a buffer of `len` elements:
nothing when the offset overflows or lies outside the buffer. -/
def elementAt (len : ℕ) (i N j : ℤ) : Option ℕ :=
  (offsetInt i N j).bind (fun z => if 0 ≤ z ∧ z < (len : ℤ) then some z.toNat else none)

/-- The read `buf[i*N + j]` from a buffer of `len` elements. -/
def loadAt {R : Type} (len : ℕ) (buf : ℕ → R) (i N j : ℕ) : Option R :=
  (elementAt len (i : ℤ) (N : ℤ) (j : ℤ)).map buf

/-- The store `buf[i*N + j] = v` to a buffer of `len` elements. -/
def storeAt {R : Type} (len : ℕ) (buf : ℕ → R) (i N j : ℕ) (v : R) : Option (ℕ → R) :=
  (elementAt len (i : ℤ) (N : ℤ) (j : ℤ)).map (fun p => Function.update buf p v)

/-! ## Buffers and their initialization -/

/-- The three matrix buffers of the driver, each of `N * N` elements. -/
structure Matrices (R : Type) where
  matrixA : ℕ → R
  matrixB : ℕ → R
  matrixC : ℕ → R

/-- Lines 107-114: every element of A, B and C gets its constant. -/
def initMatrices (N : ℕ) (m : Matrices F32) : Option (Matrices F32) :=
  forLoopM N (fun i m =>
    forLoopM N (fun j m =>
      (storeAt (N * N) m.matrixA i N j (Fl.cast (2.0 : F64))).bind fun A =>
      (storeAt (N * N) m.matrixB i N j (Fl.cast (0.5 : F64))).bind fun B =>
      (storeAt (N * N) m.matrixC i N j (Fl.cast (1.0 : F64))).map fun C =>
      ({ matrixA := A, matrixB := B, matrixC := C } : Matrices F32)) m) m

/-! ## The reference kernel -/

section Kernel

variable {R : Type} [Zero R] [Add R] [Mul R]

/-- Lines 142-146: `sum = 0; for (k...) sum += A[i*N + k] * B[k*N + j];`. -/
def innerSum (N : ℕ) (matrixA matrixB : ℕ → R) (i j : ℕ) : Option R :=
  forLoopM N (fun k sum =>
    (loadAt (N * N) matrixA i N k).bind fun a =>
    (loadAt (N * N) matrixB k N j).map fun b => sum + a * b) 0

/-- Lines 139-150: one invocation of the reference kernel, in place on C. -/
def sgemmRef (N : ℕ) (alpha beta : R) (matrixA matrixB matrixC : ℕ → R) : Option (ℕ → R) :=
  forLoopM N (fun i C =>
    forLoopM N (fun j C =>
      (innerSum N matrixA matrixB i j).bind fun sum =>
      (loadAt (N * N) C i N j).bind fun c =>
      storeAt (N * N) C i N j (alpha * sum + beta * c)) C) matrixC

/-- Lines 131-152: the kernel invoked `repeats` times on the same C. -/
def repeatLoop (repeats N : ℕ) (alpha beta : R) (matrixA matrixB matrixC : ℕ → R) :
    Option (ℕ → R) :=
  forLoopM repeats (fun _ C => sgemmRef N alpha beta matrixA matrixB C) matrixC

/-- The terms `f 0, ..., f (n-1)` added up in index order, starting from 0. -/
def seqSum (n : ℕ) (f : ℕ → R) : R :=
  (List.range n).foldl (fun s k => s + f k) 0

/-- Lines 139-150 as a step on the memory that holds the three buffers: the
loops read `matrixA`, `matrixB` and `matrixC` from it and their one store goes
to `matrixC`. -/
def sgemmRefState (N : ℕ) (alpha beta : R) (m : Matrices R) : Option (Matrices R) :=
  forLoopM N (fun i m =>
    forLoopM N (fun j m =>
      (forLoopM N (fun k sum =>
        (loadAt (N * N) m.matrixA i N k).bind fun a =>
        (loadAt (N * N) m.matrixB k N j).map fun b => sum + a * b) 0).bind fun sum =>
      (loadAt (N * N) m.matrixC i N j).bind fun c =>
      (storeAt (N * N) m.matrixC i N j (alpha * sum + beta * c)).map fun C =>
      { m with matrixC := C }) m) m

/-- Lines 131-152 as a step on the memory that holds the three buffers. -/
def repeatLoopState (repeats N : ℕ) (alpha beta : R) (m : Matrices R) :
    Option (Matrices R) :=
  forLoopM repeats (fun _ m => sgemmRefState N alpha beta m) m

end Kernel

/-! ## The values the loops compute

Auxiliary functions for the proofs: what the loops above leave behind when
every offset is in range (`N * N < 2 ^ 31`), written with the offsets as
natural numbers.  The loops above are equal to them exactly in that range
(`initMatrices_eq`, `sgemmRef_eq`, `repeatLoop_eq`, `checksum_eq_val`). -/

/-- The value of `initMatrices` when every offset is in range. -/
def initMatricesVal (N : ℕ) (m : Matrices F32) : Matrices F32 :=
  forLoop N (fun i m =>
    forLoop N (fun j m =>
      { matrixA := Function.update m.matrixA (i * N + j) (Fl.cast (2.0 : F64))
        matrixB := Function.update m.matrixB (i * N + j) (Fl.cast (0.5 : F64))
        matrixC := Function.update m.matrixC (i * N + j) (Fl.cast (1.0 : F64)) }) m) m

section KernelVal

variable {R : Type} [Zero R] [Add R] [Mul R]

/-- The value of `innerSum` when every offset is in range. -/
def innerSumVal (N : ℕ) (matrixA matrixB : ℕ → R) (i j : ℕ) : R :=
  forLoop N (fun k sum => sum + matrixA (i * N + k) * matrixB (k * N + j)) 0

/-- The value of `sgemmRef` when every offset is in range. -/
def sgemmRefVal (N : ℕ) (alpha beta : R) (matrixA matrixB matrixC : ℕ → R) : ℕ → R :=
  forLoop N (fun i C =>
    forLoop N (fun j C =>
      Function.update C (i * N + j)
        (alpha * innerSumVal N matrixA matrixB i j + beta * C (i * N + j))) C) matrixC

/-- The value of `repeatLoop` when every offset is in range. -/
def repeatLoopVal (repeats N : ℕ) (alpha beta : R) (matrixA matrixB matrixC : ℕ → R) :
    ℕ → R :=
  forLoop repeats (fun _ C => sgemmRefVal N alpha beta matrixA matrixB C) matrixC

end KernelVal

/-- The value of `checksum` when every offset is in range. -/
def checksumVal (N : ℕ) (matrixC : ℕ → F32) : F32 × F32 :=
  forLoop N (fun i s =>
    forLoop N (fun j s =>
      (s.1 + matrixC (i * N + j),
       Fl.cast ((Fl.cast s.2 : F64) + (1.0 : F64)))) s) (0, 0)

/-! ## The parallel region of the kernel

Line 139, `#pragma omp parallel for private(sum)`, hands the rows of the loop
over `i` to the workers of a team.  `i` is private to a worker as the variable
of the parallel loop and `sum` by the clause; `j` and `k`, declared at line
105 outside the region, are not listed and so are shared by the team, as the
three buffers are.  A worker runs lines 140-150 on its chunk of rows, one
statement or loop test at a time, and each read and write of a shared variable
takes effect at once; a schedule is the order in which the workers take their
steps. -/

/-- Where a worker stands in lines 139-150: at the test or the increment of
one of the three loops, or at one of the statements. -/
inductive Pc
  | testI
  | initJ
  | testJ
  | initSum
  | initK
  | testK
  | addTerm
  | incK
  | storeC
  | incJ
  | incI
  | done

/-- What is private to a worker: its row `i`, the end `last` of its chunk of
rows, its copy of `sum`, and where it stands. -/
structure Worker (R : Type) where
  i : ℕ
  last : ℕ
  sum : R
  pc : Pc

/-- What the team shares: `j`, `k` and the buffer C. -/
structure Shared (R : Type) where
  j : ℕ
  k : ℕ
  matrixC : ℕ → R

/-- The team of a parallel region and what it shares. -/
structure Region (R : Type) where
  workers : List (Worker R)
  shared : Shared R

/-- The C expression `n + 1` on an `int` that holds `n`. -/
def incInt (n : ℕ) : Option ℕ :=
  (intResult ((n : ℤ) + 1)).map Int.toNat

section ParallelRegion

variable {R : Type} [Zero R] [Add R] [Mul R]

/-- One step of a worker in lines 139-150. -/
def stepWorker (N : ℕ) (alpha beta : R) (matrixA matrixB : ℕ → R) (w : Worker R)
    (s : Shared R) : Option (Worker R × Shared R) :=
  match w.pc with
  | .testI => some ({ w with pc := if w.i < w.last then .initJ else .done }, s)
  | .initJ => some ({ w with pc := .testJ }, { s with j := 0 })
  | .testJ => some ({ w with pc := if s.j < N then .initSum else .incI }, s)
  | .initSum => some ({ w with sum := 0, pc := .initK }, s)
  | .initK => some ({ w with pc := .testK }, { s with k := 0 })
  | .testK => some ({ w with pc := if s.k < N then .addTerm else .storeC }, s)
  | .addTerm =>
    (loadAt (N * N) matrixA w.i N s.k).bind fun a =>
    (loadAt (N * N) matrixB s.k N s.j).map fun b =>
      ({ w with sum := w.sum + a * b, pc := .incK }, s)
  | .incK => (incInt s.k).map fun k => ({ w with pc := .testK }, { s with k := k })
  | .storeC =>
    (loadAt (N * N) s.matrixC w.i N s.j).bind fun c =>
    (storeAt (N * N) s.matrixC w.i N s.j (alpha * w.sum + beta * c)).map fun C =>
      ({ w with pc := .incJ }, { s with matrixC := C })
  | .incJ => (incInt s.j).map fun j => ({ w with pc := .testJ }, { s with j := j })
  | .incI => (incInt w.i).map fun i => ({ w with i := i, pc := .testI }, s)
  | .done => some (w, s)

/-- One step of the region: worker `t` of the team takes a step. -/
def stepRegion (N : ℕ) (alpha beta : R) (matrixA matrixB : ℕ → R) (t : ℕ) (g : Region R) :
    Option (Region R) :=
  match g.workers[t]? with
  | none => none
  | some w =>
    (stepWorker N alpha beta matrixA matrixB w g.shared).map fun x =>
      ({ workers := g.workers.set t x.1, shared := x.2 } : Region R)

/-- The region run under a schedule, the list of the workers in the order in
which they take their steps. -/
def runRegion (N : ℕ) (alpha beta : R) (matrixA matrixB : ℕ → R) (schedule : List ℕ)
    (g : Region R) : Option (Region R) :=
  match schedule with
  | [] => some g
  | t :: rest =>
    (stepRegion N alpha beta matrixA matrixB t g).bind
      (runRegion N alpha beta matrixA matrixB rest)

/-- The region on entry: one worker per chunk `(first, last)` of rows, at the
start of its chunk; a private `sum` has no defined value yet, the model gives
it 0. -/
def startRegion (chunks : List (ℕ × ℕ)) (s : Shared R) : Region R :=
  { workers := chunks.map fun c => { i := c.1, last := c.2, sum := 0, pc := .testI }
    shared := s }

/-- A worker that takes `n` steps in a row (auxiliary). -/
def runWorker (N : ℕ) (alpha beta : R) (matrixA matrixB : ℕ → R) (n : ℕ)
    (x : Worker R × Shared R) : Option (Worker R × Shared R) :=
  match n with
  | 0 => some x
  | n + 1 =>
    (stepWorker N alpha beta matrixA matrixB x.1 x.2).bind
      (runWorker N alpha beta matrixA matrixB n)

/-- The value of one row of the kernel when every offset is in range
(auxiliary). -/
def rowVal (N : ℕ) (alpha beta : R) (matrixA matrixB : ℕ → R) (i : ℕ) (matrixC : ℕ → R) :
    ℕ → R :=
  forLoop N (fun j C =>
    Function.update C (i * N + j)
      (alpha * innerSumVal N matrixA matrixB i j + beta * C (i * N + j))) matrixC

/-- The value of the `r` rows from `first` on (auxiliary). -/
def chunkVal (N : ℕ) (alpha beta : R) (matrixA matrixB : ℕ → R) (first r : ℕ)
    (matrixC : ℕ → R) : ℕ → R :=
  forLoop r (fun t C => rowVal N alpha beta matrixA matrixB (first + t) C) matrixC

end ParallelRegion

/-- The number of steps a worker takes for one row of an `N x N` product. -/
def rowSteps (N : ℕ) : ℕ := N * (3 * N + 6) + 4

/-- A schedule of two workers with the chunks `[0, h)` and `[h, N)`: worker 1
enters its first row and executes `j = 0`; worker 0 then runs its chunk to the
end; worker 1 then runs to the end. -/
def raceSchedule (N h : ℕ) : List ℕ :=
  [1, 1] ++ List.replicate (h * rowSteps N + 1) 0
    ++ List.replicate ((N - h - 1) * rowSteps N + 3) 1

/-! ## Verification reduction and report -/

/-- Lines 166-175: `final_sum` and `count` after the reduction loop.  The
constant `1.0` is a `double`, so `count += 1.0` adds in `double` and stores a
`float`.  The loop runs in program order, as in the build without OpenMP. -/
def checksum (N : ℕ) (matrixC : ℕ → F32) : Option (F32 × F32) :=
  forLoopM N (fun i s =>
    forLoopM N (fun j s =>
      (loadAt (N * N) matrixC i N j).map fun c =>
        (s.1 + c, (Fl.cast ((Fl.cast s.2 : F64) + (1.0 : F64)) : F32))) s) (0, 0)

/-- Line 177: `float N_dbl = (float) N`. -/
def N_dbl (N : ℤ) : F32 := Fl.ofInt N

/-- Line 178: `(3 * N_dbl * N_dbl) * ((float) sizeof(float))`. -/
def matrix_memory (N : ℤ) : F32 :=
  (Fl.ofInt 3 * N_dbl N * N_dbl N) * Fl.ofInt 4

/-- Line 183: the value printed as "Final Sum". -/
def finalSumReport (final_sum count : F32) (repeats : ℤ) : F32 :=
  final_sum / (count * Fl.ofInt repeats)

/-- Lines 184-185: the value printed as "Memory for Matrices". -/
def memoryMB (N : ℤ) : F32 :=
  matrix_memory N / Fl.ofInt (1024 * 1024)

/-- Lines 193-194: the first product is `float` up to the `double` constant
`2.0`, the second is `float` throughout, the sum is `double`. -/
def flops_computed (N repeats : ℤ) : F64 :=
  ((Fl.cast (N_dbl N * N_dbl N * N_dbl N) : F64) * (2.0 : F64)
      * (Fl.cast (Fl.ofInt repeats : F32) : F64))
    + (Fl.cast (N_dbl N * N_dbl N * Fl.ofInt 2 * (Fl.ofInt repeats : F32)) : F64)

/-! ## The driver -/

/-- A command-line argument, given by what `atoi` and `atof` return on it. -/
structure Arg where
  atoi : ℤ
  atof : F64

/-- The argument that spells the integer `z` in decimal. -/
def Arg.int (z : ℤ) : Arg := ⟨z, Fl.ofInt z⟩

/-- The argument that spells the decimal number `q`: `atoi` reads its
integer part. -/
def Arg.dec (q : ℚ) : Arg := ⟨if 0 ≤ q then ⌊q⌋ else ⌈q⌉, Fl.ofRat q⟩

/-- The vector `argv` of a command line: `argv[0]` is the program name,
`argv[1]`, ... are the given arguments. -/
def argvOf (args : List Arg) : ℕ → Arg :=
  fun i => (args.get? (i - 1)).getD (Arg.int 0)

/-- The two output streams. -/
inductive Stream
  | stdout
  | stderr
deriving DecidableEq

/-- The messages of the driver, one per format string, with the values
printed. -/
inductive Msg
  | sizeInput (N : ℤ)
  | errRepeats (repeats : ℤ)
  | repeatTimes (repeats : ℤ)
  | repeatDefaulted (repeats : ℤ)
  | sizeDefaulted (N : ℤ)
  | alphaIs (alpha : F32)
  | betaIs (beta : F32)
  | errSize (N : ℤ)
  | allocating
  | allocationComplete
  | performing
  | calculating
  | newline
  | rule
  | finalSum (v : F32)
  | memory (v : F32)
  | multiplyTime
  | flops (v : F64)
  | gflopRate
deriving DecidableEq

/-- What a run does that is visible from outside, in program order. -/
inductive Event
  | print (s : Stream) (m : Msg)
  | malloc (bytes : ℕ)
  | free
deriving DecidableEq

/-- How a run ends: `exit(code)`, `return code` from `main`, a store through
a null pointer, or an access whose offset overflows `int` (both undefined
behaviour). -/
inductive Outcome
  | exit (code : ℤ)
  | returned (code : ℤ)
  | nullStore
  | offsetOverflow
deriving DecidableEq

/-- The status the parent process sees for an `exit` or `return` code. -/
def exitStatus (code : ℤ) : ℤ := code % 256

/-- A run of the driver: its events and how it ended. -/
structure Run where
  events : List Event
  outcome : Outcome
deriving DecidableEq

/-- The values read from the command line. -/
structure Config where
  N : ℤ
  repeats : ℤ
  alpha : F32
  beta : F32
deriving DecidableEq

/-- Lines 55 and 61-62: the matrix size the run works with. -/
def inputN (argc : ℕ) (argv : ℕ → Arg) : ℤ :=
  if argc > 1 then (argv 1).atoi else 256

/-- Lines 56 and 61-66: the repeat count the run works with. -/
def inputRepeats (argc : ℕ) (argv : ℕ → Arg) : ℤ :=
  if argc > 1 then (if argc > 2 then (argv 2).atoi else 8) else 8

/-- Lines 55-87: argument parsing.  The result is the messages printed and
the configuration, or no configuration when `exit(-1)` was called. -/
def parseArgs (argc : ℕ) (argv : ℕ → Arg) : List Event × Option Config :=
  if argc > 1 then
    let N := (argv 1).atoi
    let out := [Event.print .stdout (.sizeInput N)]
    if argc > 2 then
      let repeats := (argv 2).atoi
      if repeats < 4 then
        (out ++ [Event.print .stderr (.errRepeats repeats)], none)
      else
        let out := out ++ [Event.print .stdout (.repeatTimes repeats)]
        if argc > 3 then
          let alpha : F32 := Fl.cast (argv 3).atof
          if argc > 4 then
            (out, some ⟨N, repeats, alpha, Fl.cast (argv 4).atof⟩)
          else
            (out, some ⟨N, repeats, alpha, Fl.cast (1.0 : F64)⟩)
        else
          (out, some ⟨N, repeats, Fl.cast (1.0 : F64), Fl.cast (1.0 : F64)⟩)
    else
      (out ++ [Event.print .stdout (.repeatDefaulted 8)],
        some ⟨N, 8, Fl.cast (1.0 : F64), Fl.cast (1.0 : F64)⟩)
  else
    ([Event.print .stdout (.sizeDefaulted 256)],
      some ⟨256, 8, Fl.cast (1.0 : F64), Fl.cast (1.0 : F64)⟩)

/-- The three computed values of the final report. -/
structure Report where
  finalSum : F32
  memory : F32
  flops : F64

/-- The values of the final report when every offset is in range (auxiliary,
see `benchmark_eq`). -/
def reportVal (c : Config) (m : Matrices F32) : Report :=
  let m := initMatricesVal c.N.toNat m
  let C := repeatLoopVal c.repeats.toNat c.N.toNat c.alpha c.beta m.matrixA m.matrixB m.matrixC
  let s := checksumVal c.N.toNat C
  { finalSum := finalSumReport s.1 s.2 c.repeats
    memory := memoryMB c.N
    flops := flops_computed c.N c.repeats }

/-- Lines 180-204: the report and the release of the buffers.  The two lines
that depend on the clock carry no value. -/
def reportEvents (c : Config) (s : F32 × F32) : List Event :=
  [Event.print .stdout .newline,
   Event.print .stdout .rule,
   Event.print .stdout (.finalSum (finalSumReport s.1 s.2 c.repeats)),
   Event.print .stdout (.memory (memoryMB c.N)),
   Event.print .stdout .multiplyTime,
   Event.print .stdout (.flops (flops_computed c.N c.repeats)),
   Event.print .stdout .gflopRate,
   Event.print .stdout .rule,
   Event.print .stdout .newline,
   Event.free, Event.free, Event.free]

/-- Lines 107-206 on allocated buffers: initialization, the repeat loop, the
verification reduction, the report and the release of the buffers.  A loop
without result ends the run where it stands. -/
def benchmark (c : Config) (m : Matrices F32) : Run :=
  match initMatrices c.N.toNat m with
  | none => ⟨[], .offsetOverflow⟩
  | some m =>
    match repeatLoop c.repeats.toNat c.N.toNat c.alpha c.beta
        m.matrixA m.matrixB m.matrixC with
    | none => ⟨[Event.print .stdout .performing], .offsetOverflow⟩
    | some C =>
      match checksum c.N.toNat C with
      | none =>
        ⟨[Event.print .stdout .performing, Event.print .stdout .calculating],
          .offsetOverflow⟩
      | some s =>
        ⟨[Event.print .stdout .performing, Event.print .stdout .calculating]
            ++ reportEvents c s, .returned 0⟩

/-- Lines 92-206: the size check, the three allocations and the benchmark.
Each `malloc` result is the new buffer, or `none` for a null pointer; the
results are not tested, the initialization loop stores through them in its
first round. -/
def runConfig (c : Config) (mallocA mallocB mallocC : Option (ℕ → F32)) : Run :=
  let out :=
    [Event.print .stdout (.alphaIs c.alpha), Event.print .stdout (.betaIs c.beta)]
  if c.N < 128 then
    ⟨out ++ [Event.print .stdout (.errSize c.N)], .exit (-1)⟩
  else
    let bytes := (4 * c.N.toNat * c.N.toNat) % 2 ^ 64
    let out := out ++
      [Event.print .stdout .allocating,
       Event.malloc bytes, Event.malloc bytes, Event.malloc bytes,
       Event.print .stdout .allocationComplete]
    match mallocA, mallocB, mallocC with
    | some A, some B, some C =>
      ⟨out ++ (benchmark c ⟨A, B, C⟩).events, (benchmark c ⟨A, B, C⟩).outcome⟩
    | _, _, _ => ⟨out, .nullStore⟩

/-- The program: `argc`, `argv` and the results of the three `malloc` calls
to the run. -/
def main (argc : ℕ) (argv : ℕ → Arg) (mallocA mallocB mallocC : Option (ℕ → F32)) :
    Run :=
  match parseArgs argc argv with
  | (out, none) => ⟨out, .exit (-1)⟩
  | (out, some c) =>
    let r := runConfig c mallocA mallocB mallocC
    ⟨out ++ r.events, r.outcome⟩

end MtSgemm

namespace MtSgemm

/-! ## Facts about rounding -/

theorem roundHalfEven_intCast (z : ℤ) : roundHalfEven (z : ℚ) = z := by
  simp [roundHalfEven]

/-- A value with a significand below `2 ^ p` is not changed by rounding. -/
theorem roundTo_exact (p : ℕ) (m e : ℤ) (hm : |m| < 2 ^ p) :
    roundTo p ((m : ℚ) * (2 : ℚ) ^ e) = (m : ℚ) * (2 : ℚ) ^ e := by
  by_cases hm0 : m = 0
  · simp [roundTo, hm0]
  have h2 : (0 : ℚ) < (2 : ℚ) ^ e := zpow_pos (by norm_num) e
  have hx0 : (m : ℚ) * (2 : ℚ) ^ e ≠ 0 := by
    apply mul_ne_zero
    · exact_mod_cast hm0
    · exact h2.ne'
  have hpos : (0 : ℚ) < |(m : ℚ) * (2 : ℚ) ^ e| := abs_pos.mpr hx0
  have hlt : |(m : ℚ) * (2 : ℚ) ^ e| < ((2 : ℕ) : ℚ) ^ (e + (p : ℤ)) := by
    rw [abs_mul, abs_of_pos h2, zpow_add₀ (by norm_num), mul_comm]
    apply mul_lt_mul_of_pos_left _ (by exact_mod_cast h2)
    have : ((|m| : ℤ) : ℚ) < ((2 ^ p : ℤ) : ℚ) := by exact_mod_cast hm
    simpa using this
  have hlog : Int.log 2 |(m : ℚ) * (2 : ℚ) ^ e| < e + (p : ℤ) :=
    (Int.lt_zpow_iff_log_lt (by norm_num) hpos).mp hlt
  simp only [roundTo, if_neg hx0]
  generalize hs : Int.log 2 |(m : ℚ) * (2 : ℚ) ^ e| - ((p : ℤ) - 1) = s
  have hse : s ≤ e := by omega
  obtain ⟨n, hn⟩ := Int.eq_ofNat_of_zero_le (sub_nonneg.mpr hse)
  have h2s : (2 : ℚ) ^ s ≠ 0 := (zpow_pos (by norm_num) s).ne'
  have hdiv : (m : ℚ) * (2 : ℚ) ^ e / (2 : ℚ) ^ s = ((m * 2 ^ n : ℤ) : ℚ) := by
    have : e = s + n := by omega
    rw [this, zpow_add₀ (by norm_num)]
    field_simp
    ring
  rw [hdiv, roundHalfEven_intCast, ← hdiv]
  field_simp

/-- An integer below `2 ^ p` in absolute value is a float. -/
theorem roundTo_intCast (p : ℕ) (z : ℤ) (hz : |z| < 2 ^ p) : roundTo p (z : ℚ) = z := by
  simpa using roundTo_exact p z 0 hz

/-- Every natural number up to `2 ^ p` is a float. -/
theorem roundTo_natCast (p : ℕ) (hp : 0 < p) (n : ℕ) (hn : n ≤ 2 ^ p) :
    roundTo p (n : ℚ) = n := by
  rcases Nat.lt_or_ge n (2 ^ p) with h | h
  · have : |(n : ℤ)| < 2 ^ p := by
      rw [abs_of_nonneg (by positivity)]
      exact_mod_cast h
    simpa using roundTo_intCast p n this
  · have hn2 : n = 2 ^ p := le_antisymm hn h
    obtain ⟨k, rfl⟩ : ∃ k, p = k + 1 := ⟨p - 1, by omega⟩
    have h1 : |((2 : ℤ) ^ k)| < 2 ^ (k + 1) := by
      rw [abs_of_nonneg (by positivity), pow_succ]
      have : (0 : ℤ) < 2 ^ k := by positivity
      omega
    have := roundTo_exact (k + 1) (2 ^ k) 1 h1
    have e : (((2 : ℤ) ^ k : ℤ) : ℚ) * (2 : ℚ) ^ (1 : ℤ) = (n : ℚ) := by
      rw [hn2]
      push_cast
      rw [pow_succ]
      simp
    rwa [e] at this

/-- A natural number up to `2 ^ p`, scaled by a power of two, is a float. -/
theorem roundTo_natCast_div (p : ℕ) (hp : 0 < p) (n k : ℕ) (hn : n ≤ 2 ^ p) :
    roundTo p ((n : ℚ) / 2 ^ k) = (n : ℚ) / 2 ^ k := by
  rcases Nat.lt_or_ge n (2 ^ p) with h | h
  · have hz : |(n : ℤ)| < 2 ^ p := by
      rw [abs_of_nonneg (by positivity)]
      exact_mod_cast h
    have := roundTo_exact p n (-(k : ℤ)) hz
    simpa [zpow_neg, div_eq_mul_inv] using this
  · have hn2 : n = 2 ^ p := le_antisymm hn h
    obtain ⟨j, rfl⟩ : ∃ j, p = j + 1 := ⟨p - 1, by omega⟩
    have h1 : |((2 : ℤ) ^ j)| < 2 ^ (j + 1) := by
      rw [abs_of_nonneg (by positivity), pow_succ]
      have : (0 : ℤ) < 2 ^ j := by positivity
      omega
    have := roundTo_exact (j + 1) (2 ^ j) (1 - (k : ℤ)) h1
    have e : (((2 : ℤ) ^ j : ℤ) : ℚ) * (2 : ℚ) ^ (1 - (k : ℤ)) = (n : ℚ) / 2 ^ k := by
      rw [hn2, zpow_sub₀ (by norm_num)]
      push_cast
      rw [pow_succ]
      simp
      ring
    rwa [e] at this

/-- Between `2 ^ p` and `2 ^ (p + 1)` the floats are the even integers: an
odd integer there is a tie and goes to the neighbour with the even
significand. -/
theorem roundTo_odd (p : ℕ) (hp : 0 < p) (m : ℕ) (h1 : 2 ^ (p - 1) ≤ m) (h2 : m < 2 ^ p) :
    roundTo p ((2 * m + 1 : ℕ) : ℚ) = if m % 2 = 0 then ((2 * m : ℕ) : ℚ) else ((2 * m + 2 : ℕ) : ℚ) := by
  obtain ⟨k, rfl⟩ : ∃ k, p = k + 1 := ⟨p - 1, by omega⟩
  simp only [Nat.add_sub_cancel] at h1
  have hx0 : ((2 * m + 1 : ℕ) : ℚ) ≠ 0 := by positivity
  have hpos : (0 : ℚ) < |((2 * m + 1 : ℕ) : ℚ)| := abs_pos.mpr hx0
  have hlog : Int.log 2 |((2 * m + 1 : ℕ) : ℚ)| = (k : ℤ) + 1 := by
    apply le_antisymm
    · have : Int.log 2 |((2 * m + 1 : ℕ) : ℚ)| < (k : ℤ) + 1 + 1 := by
        rw [← Int.lt_zpow_iff_log_lt (by norm_num) hpos, abs_of_pos (by positivity)]
        have : 2 * m + 1 < 2 ^ (k + 1 + 1) := by
          rw [pow_succ]
          omega
        have h3 : ((2 * m + 1 : ℕ) : ℚ) < ((2 ^ (k + 1 + 1) : ℕ) : ℚ) := by exact_mod_cast this
        have h4 : (((2 : ℕ) : ℚ)) ^ ((k : ℤ) + 1 + 1) = ((2 ^ (k + 1 + 1) : ℕ) : ℚ) := by
          push_cast
          norm_cast
        rw [h4]
        exact h3
      omega
    · rw [← Int.zpow_le_iff_le_log (by norm_num) hpos, abs_of_pos (by positivity)]
      have : 2 ^ (k + 1) ≤ 2 * m + 1 := by
        rw [pow_succ]
        omega
      have h3 : ((2 ^ (k + 1) : ℕ) : ℚ) ≤ ((2 * m + 1 : ℕ) : ℚ) := by exact_mod_cast this
      have h4 : (((2 : ℕ) : ℚ)) ^ ((k : ℤ) + 1) = ((2 ^ (k + 1) : ℕ) : ℚ) := by
        push_cast
        norm_cast
      rw [h4]
      exact h3
  have hs : Int.log 2 |((2 * m + 1 : ℕ) : ℚ)| - (((k + 1 : ℕ) : ℤ) - 1) = 1 := by
    rw [hlog]
    push_cast
    ring
  simp only [roundTo, if_neg hx0, hs]
  have hfl : ⌊((2 * m + 1 : ℕ) : ℚ) / (2 : ℚ) ^ (1 : ℤ)⌋ = (m : ℤ) := by
    rw [Int.floor_eq_iff]
    push_cast
    constructor
    · rw [zpow_one, le_div_iff₀ (by norm_num)]
      linarith
    · rw [zpow_one, div_lt_iff₀ (by norm_num)]
      linarith
  have hrhe : roundHalfEven (((2 * m + 1 : ℕ) : ℚ) / (2 : ℚ) ^ (1 : ℤ))
      = if m % 2 = 0 then (m : ℤ) else (m : ℤ) + 1 := by
    have hd : ((2 * m + 1 : ℕ) : ℚ) / (2 : ℚ) ^ (1 : ℤ) - ((m : ℤ) : ℚ) = 1 / 2 := by
      push_cast
      rw [zpow_one]
      ring
    simp only [roundHalfEven, hfl, hd, lt_irrefl, if_false]
    have : ((m : ℤ) % 2 = 0) ↔ (m % 2 = 0) := by omega
    simp only [this]
  rw [hrhe]
  split_ifs <;> push_cast <;> simp <;> ring

/-! ## Facts about the float operations -/

theorem Fl.ext_val {p : ℕ} {a b : Fl p} (h : a.val = b.val) : a = b := by
  cases a
  cases b
  simp_all

@[simp] theorem Fl.add_val {p : ℕ} (a b : Fl p) : (a + b).val = roundTo p (a.val + b.val) := rfl

@[simp] theorem Fl.sub_val {p : ℕ} (a b : Fl p) : (a - b).val = roundTo p (a.val - b.val) := rfl

@[simp] theorem Fl.mul_val {p : ℕ} (a b : Fl p) : (a * b).val = roundTo p (a.val * b.val) := rfl

@[simp] theorem Fl.div_val {p : ℕ} (a b : Fl p) : (a / b).val = roundTo p (a.val / b.val) := rfl

@[simp] theorem Fl.zero_val {p : ℕ} : (0 : Fl p).val = 0 := rfl

@[simp] theorem Fl.ofRat_val {p : ℕ} (q : ℚ) : (Fl.ofRat q : Fl p).val = roundTo p q := rfl

@[simp] theorem Fl.ofInt_val {p : ℕ} (z : ℤ) : (Fl.ofInt z : Fl p).val = roundTo p z := rfl

@[simp] theorem Fl.cast_val {p q : ℕ} (x : Fl p) : (Fl.cast x : Fl q).val = roundTo q x.val := rfl

theorem Fl.ofScientific_val {p : ℕ} (m : ℕ) (s : Bool) (e : ℕ) :
    (OfScientific.ofScientific m s e : Fl p).val
      = roundTo p (OfScientific.ofScientific m s e : ℚ) := rfl

theorem roundTo_one (p : ℕ) (hp : 0 < p) : roundTo p 1 = 1 := by
  simpa using roundTo_natCast p hp 1 (Nat.one_le_two_pow)

theorem roundTo_two (p : ℕ) (hp : 1 < p) : roundTo p 2 = 2 := by
  have : 2 ≤ 2 ^ p := by
    calc 2 = 2 ^ 1 := by norm_num
      _ ≤ 2 ^ p := Nat.pow_le_pow_right (by norm_num) (by omega)
  simpa using roundTo_natCast p (by omega) 2 this

theorem roundTo_half (p : ℕ) (hp : 0 < p) : roundTo p (1 / 2) = 1 / 2 := by
  simpa using roundTo_natCast_div p hp 1 1 (Nat.one_le_two_pow)

/-- The constant `2.0` stored in a `float`. -/
theorem lit_two : (Fl.cast (2.0 : F64) : F32) = ⟨2⟩ := by
  apply Fl.ext_val
  have h : (OfScientific.ofScientific 20 true 1 : ℚ) = 2 := by norm_num
  rw [Fl.cast_val, Fl.ofScientific_val, h, roundTo_two 53 (by norm_num),
    roundTo_two 24 (by norm_num)]

/-- The constant `0.5` stored in a `float`. -/
theorem lit_half : (Fl.cast (0.5 : F64) : F32) = ⟨1 / 2⟩ := by
  apply Fl.ext_val
  have h : (OfScientific.ofScientific 5 true 1 : ℚ) = 1 / 2 := by norm_num
  rw [Fl.cast_val, Fl.ofScientific_val, h, roundTo_half 53 (by norm_num),
    roundTo_half 24 (by norm_num)]

/-- The `double` constant `1.0`. -/
theorem lit_one64 : (1.0 : F64) = ⟨1⟩ := by
  apply Fl.ext_val
  have h : (OfScientific.ofScientific 10 true 1 : ℚ) = 1 := by norm_num
  rw [Fl.ofScientific_val, h, roundTo_one 53 (by norm_num)]

/-- The `double` constant `2.0`. -/
theorem lit_two64 : (2.0 : F64) = ⟨2⟩ := by
  apply Fl.ext_val
  have h : (OfScientific.ofScientific 20 true 1 : ℚ) = 2 := by norm_num
  rw [Fl.ofScientific_val, h, roundTo_two 53 (by norm_num)]

/-- The constant `1.0` stored in a `float`. -/
theorem lit_one : (Fl.cast (1.0 : F64) : F32) = ⟨1⟩ := by
  apply Fl.ext_val
  rw [lit_one64, Fl.cast_val, roundTo_one 24 (by norm_num)]

theorem natF_add {p : ℕ} (hp : 0 < p) (a b : ℕ) (h : a + b ≤ 2 ^ p) :
    natF p a + natF p b = natF p (a + b) := by
  apply Fl.ext_val
  have := roundTo_natCast p hp (a + b) h
  simpa [natF] using this

theorem natF_mul {p : ℕ} (hp : 0 < p) (a b : ℕ) (h : a * b ≤ 2 ^ p) :
    natF p a * natF p b = natF p (a * b) := by
  apply Fl.ext_val
  have := roundTo_natCast p hp (a * b) h
  simpa [natF] using this

theorem natF_cast {p q : ℕ} (hq : 0 < q) (a : ℕ) (h : a ≤ 2 ^ q) :
    (Fl.cast (natF p a) : Fl q) = natF q a := by
  apply Fl.ext_val
  have := roundTo_natCast q hq a h
  simpa [natF] using this

theorem ofInt_natF {p : ℕ} (hp : 0 < p) (a : ℕ) (h : a ≤ 2 ^ p) :
    (Fl.ofInt (a : ℤ) : Fl p) = natF p a := by
  apply Fl.ext_val
  have := roundTo_natCast p hp a h
  simpa [natF] using this

/-! ## Facts about loops over row-major offsets -/

@[simp] theorem forLoop_zero {σ : Type} (body : ℕ → σ → σ) (s : σ) :
    forLoop 0 body s = s := rfl

@[simp] theorem forLoop_succ {σ : Type} (n : ℕ) (body : ℕ → σ → σ) (s : σ) :
    forLoop (n + 1) body s = body n (forLoop n body s) := rfl

/-- A loop of `a + b` rounds is a loop of `a` rounds followed by one of `b`. -/
theorem forLoop_add {σ : Type} (a b : ℕ) (body : ℕ → σ → σ) (s : σ) :
    forLoop (a + b) body s = forLoop b (fun j t => body (a + j) t) (forLoop a body s) := by
  induction b with
  | zero => rfl
  | succ b ih => rw [← Nat.add_assoc, forLoop_succ, ih, forLoop_succ]

/-- Two loops whose bodies agree below the bound are equal. -/
theorem forLoop_congr {σ : Type} (n : ℕ) (f g : ℕ → σ → σ) (s : σ)
    (h : ∀ i, i < n → ∀ t, f i t = g i t) : forLoop n f s = forLoop n g s := by
  induction n with
  | zero => rfl
  | succ n ih =>
    rw [forLoop_succ, forLoop_succ, ih (fun i hi t => h i (by omega) t), h n (by omega)]

/-- A view of the state that every round maps to a round on the view is mapped
by the loop to the loop on the view. -/
theorem forLoop_proj {σ τ : Type} (π : σ → τ) (n : ℕ) (f : ℕ → σ → σ) (g : ℕ → τ → τ)
    (s : σ) (h : ∀ i t, π (f i t) = g i (π t)) :
    π (forLoop n f s) = forLoop n g (π s) := by
  induction n with
  | zero => rfl
  | succ n ih => rw [forLoop_succ, forLoop_succ, h, ih]

/-- A loop over rows with a loop over columns inside is one loop over the
row-major offsets. -/
theorem forLoop_nested {σ : Type} (m N : ℕ) (f : ℕ → σ → σ) (s : σ) :
    forLoop m (fun i t => forLoop N (fun j u => f (i * N + j) u) t) s
      = forLoop (m * N) f s := by
  induction m with
  | zero => simp
  | succ m ih => rw [forLoop_succ, ih, Nat.succ_mul, forLoop_add]

/-- A loop is the left fold over the list of its indices. -/
theorem forLoop_eq_foldl {σ : Type} (n : ℕ) (f : ℕ → σ → σ) (s : σ) :
    forLoop n f s = (List.range n).foldl (fun t k => f k t) s := by
  induction n with
  | zero => rfl
  | succ n ih => rw [forLoop_succ, ih, List.range_succ, List.foldl_append]; rfl

/-- Offsets below `N * N` are exactly the `i * N + j` with `i, j < N`. -/
theorem offset_lt {N i j : ℕ} (hi : i < N) (hj : j < N) : i * N + j < N * N := by
  calc i * N + j < i * N + N := by omega
    _ = (i + 1) * N := by ring
    _ ≤ N * N := Nat.mul_le_mul_right N hi

theorem offset_decomp {N p : ℕ} (hp : p < N * N) :
    p / N < N ∧ p % N < N ∧ p / N * N + p % N = p := by
  have hN : 0 < N := by
    rcases Nat.eq_zero_or_pos N with h | h
    · subst h
      simp at hp
    · exact h
  refine ⟨Nat.div_lt_of_lt_mul hp, Nat.mod_lt _ hN, ?_⟩
  rw [Nat.mul_comm]
  exact Nat.div_add_mod p N

/-- The offsets of a store loop on a function: one loop over `p < n` that
stores `g p (C p)` at `p` leaves `g p (C p)` at each `p < n` and the old value
elsewhere. -/
theorem forLoop_update {R : Type} (n : ℕ) (g : ℕ → R → R) (C : ℕ → R) (q : ℕ) :
    forLoop n (fun p D => Function.update D p (g p (D p))) C q
      = if q < n then g q (C q) else C q := by
  induction n with
  | zero => simp
  | succ n ih =>
    rw [forLoop_succ]
    by_cases hq : q = n
    · subst hq
      rw [Function.update_same, ih]
      simp
    · rw [Function.update_noteq hq, ih]
      by_cases h : q < n
      · simp [h, Nat.lt_succ_of_lt h]
      · have : ¬ q < n + 1 := by omega
        simp [h, this]

/-- The store loops of the driver: a row loop with a column loop inside that
stores `g (i * N + j) (C[i * N + j])` at `i * N + j`. -/
theorem nested_update {R : Type} (N : ℕ) (g : ℕ → R → R) (C : ℕ → R) (q : ℕ) :
    forLoop N (fun i D => forLoop N (fun j D =>
        Function.update D (i * N + j) (g (i * N + j) (D (i * N + j)))) D) C q
      = if q < N * N then g q (C q) else C q := by
  rw [forLoop_nested N N (fun p D => Function.update D p (g p (D p))) C, forLoop_update]

/-! ## Offsets in 32-bit arithmetic -/

/-- For a matrix of at most `2 ^ 31 - 1` elements the `int` computation of
`i*N + j` does not overflow and denotes the element `i * N + j` of a buffer of
`N * N` elements. -/
theorem elementAt_natCast (N i j : ℕ) (hNN : N * N < 2 ^ 31) (hi : i < N) (hj : j < N) :
    offsetInt (i : ℤ) (N : ℤ) (j : ℤ) = some ((i : ℤ) * (N : ℤ) + (j : ℤ))
    ∧ elementAt (N * N) (i : ℤ) (N : ℤ) (j : ℤ) = some (i * N + j) := by
  have hlt : i * N + j < N * N := offset_lt hi hj
  have h1 : i * N < 2 ^ 31 := by omega
  have h2 : i * N + j < 2 ^ 31 := by omega
  have e1 : intResult ((i : ℤ) * (N : ℤ)) = some ((i : ℤ) * (N : ℤ)) := by
    have hp : (0 : ℤ) ≤ (i : ℤ) * (N : ℤ) := by positivity
    have hq : (i : ℤ) * (N : ℤ) < 2 ^ 31 := by exact_mod_cast h1
    unfold intResult INT_MIN INT_MAX
    rw [if_pos ⟨by omega, by omega⟩]
  have e2 : intResult ((i : ℤ) * (N : ℤ) + (j : ℤ)) = some ((i : ℤ) * (N : ℤ) + (j : ℤ)) := by
    have hp : (0 : ℤ) ≤ (i : ℤ) * (N : ℤ) + (j : ℤ) := by positivity
    have hq : (i : ℤ) * (N : ℤ) + (j : ℤ) < 2 ^ 31 := by exact_mod_cast h2
    unfold intResult INT_MIN INT_MAX
    rw [if_pos ⟨by omega, by omega⟩]
  have e3 : offsetInt (i : ℤ) (N : ℤ) (j : ℤ) = some ((i : ℤ) * (N : ℤ) + (j : ℤ)) := by
    unfold offsetInt
    rw [e1, Option.some_bind, e2]
  refine ⟨e3, ?_⟩
  unfold elementAt
  rw [e3, Option.some_bind]
  have hp : (0 : ℤ) ≤ (i : ℤ) * (N : ℤ) + (j : ℤ) := by positivity
  have hq : (i : ℤ) * (N : ℤ) + (j : ℤ) < ((N * N : ℕ) : ℤ) := by exact_mod_cast hlt
  rw [if_pos ⟨hp, hq⟩]
  congr 1

/-- Claim C14. For `N >= 128` with `N * N <= 2 ^ 31 - 1` each buffer holds
`N * N` elements, and for all `i`, `j`, `k` from 0 to `N - 1` the offsets
`i*N + j`, `i*N + k` and `k*N + j` of the three loops are computed on `int`
without overflow, lie in the range from 0 to `N * N - 1`, and denote the
elements of the buffers that the loops of the model access. -/
theorem offsetInt_spec (N i j k : ℤ) (hN : 128 ≤ N) (hNN : N * N ≤ 2 ^ 31 - 1)
    (hi : 0 ≤ i ∧ i < N) (hj : 0 ≤ j ∧ j < N) (hk : 0 ≤ k ∧ k < N) :
    bufferLength ((4 * N.toNat * N.toNat) % 2 ^ 64) = N.toNat * N.toNat
    ∧ offsetInt i N j = some (i * N + j) ∧ 0 ≤ i * N + j ∧ i * N + j < N * N
    ∧ offsetInt i N k = some (i * N + k) ∧ 0 ≤ i * N + k ∧ i * N + k < N * N
    ∧ offsetInt k N j = some (k * N + j) ∧ 0 ≤ k * N + j ∧ k * N + j < N * N
    ∧ elementAt (N.toNat * N.toNat) i N j = some (i.toNat * N.toNat + j.toNat)
    ∧ elementAt (N.toNat * N.toNat) i N k = some (i.toNat * N.toNat + k.toNat)
    ∧ elementAt (N.toNat * N.toNat) k N j = some (k.toNat * N.toNat + j.toNat) := by
  lift N to ℕ using (by omega)
  lift i to ℕ using hi.1
  lift j to ℕ using hj.1
  lift k to ℕ using hk.1
  have hNN2 : N * N < 2 ^ 31 := by
    have : ((N * N : ℕ) : ℤ) < 2 ^ 31 := by
      push_cast
      omega
    exact_mod_cast this
  have hi2 : i < N := by exact_mod_cast hi.2
  have hj2 : j < N := by exact_mod_cast hj.2
  have hk2 : k < N := by exact_mod_cast hk.2
  have hij := elementAt_natCast N i j hNN2 hi2 hj2
  have hik := elementAt_natCast N i k hNN2 hi2 hk2
  have hkj := elementAt_natCast N k j hNN2 hk2 hj2
  have bij : ((i * N + j : ℕ) : ℤ) < ((N * N : ℕ) : ℤ) := by exact_mod_cast offset_lt hi2 hj2
  have bik : ((i * N + k : ℕ) : ℤ) < ((N * N : ℕ) : ℤ) := by exact_mod_cast offset_lt hi2 hk2
  have bkj : ((k * N + j : ℕ) : ℤ) < ((N * N : ℕ) : ℤ) := by exact_mod_cast offset_lt hk2 hj2
  simp only [Int.toNat_ofNat]
  refine ⟨?_, hij.1, by positivity, by exact_mod_cast bij, hik.1, by positivity,
    by exact_mod_cast bik, hkj.1, by positivity, by exact_mod_cast bkj, hij.2, hik.2, hkj.2⟩
  unfold bufferLength
  have : 4 * N * N < 2 ^ 64 := by
    have : 4 * N * N = 4 * (N * N) := by ring
    omega
  rw [Nat.mod_eq_of_lt this]
  have : 4 * N * N = 4 * (N * N) := by ring
  omega

/-- Claim C14 at the largest size, `N = 46340`, and the last row and
column. -/
theorem offsetInt_spec_witness :
    (128 : ℤ) ≤ 46340 ∧ (46340 : ℤ) * 46340 ≤ 2 ^ 31 - 1
    ∧ offsetInt 46339 46340 46339 = some (46339 * 46340 + 46339)
    ∧ elementAt ((46340 : ℤ).toNat * (46340 : ℤ).toNat) 46339 46340 46339
        = some ((46339 : ℤ).toNat * (46340 : ℤ).toNat + (46339 : ℤ).toNat) := by
  have h := offsetInt_spec 46340 46339 46339 46339 (by norm_num) (by norm_num)
    (by norm_num) (by norm_num) (by norm_num)
  exact ⟨by norm_num, by norm_num, h.2.1, h.2.2.2.2.2.2.2.2.2.2.1⟩

/-- The bound of claim C14 is sharp: at `N = 46341` the offset of the last
element overflows. -/
theorem offsetInt_overflow : offsetInt 46340 46341 46340 = none := by
  simp [offsetInt, intResult, INT_MIN, INT_MAX]

/-! ## The loops with machine offsets and their values -/

@[simp] theorem forLoopM_zero {σ : Type} (body : ℕ → σ → Option σ) (s : σ) :
    forLoopM 0 body s = some s := rfl

@[simp] theorem forLoopM_succ {σ : Type} (n : ℕ) (body : ℕ → σ → Option σ) (s : σ) :
    forLoopM (n + 1) body s = (forLoopM n body s).bind (body n) := rfl

/-- A loop whose rounds all have a result has the result of the loop over
those results. -/
theorem forLoopM_eq_some {σ : Type} (n : ℕ) (body : ℕ → σ → Option σ) (f : ℕ → σ → σ)
    (s : σ) (h : ∀ i, i < n → ∀ t, body i t = some (f i t)) :
    forLoopM n body s = some (forLoop n f s) := by
  induction n with
  | zero => rfl
  | succ n ih =>
    rw [forLoopM_succ, ih (fun i hi t => h i (by omega) t), Option.some_bind, h n (by omega),
      forLoop_succ]

/-- A loop whose last round never has a result has none. -/
theorem forLoopM_none {σ : Type} (n : ℕ) (body : ℕ → σ → Option σ) (s : σ)
    (h : ∀ t, body n t = none) : forLoopM (n + 1) body s = none := by
  rw [forLoopM_succ]
  cases forLoopM n body s with
  | none => rfl
  | some t => exact h t

/-- An offset of `2 ^ 31` or more is not computed: the product or the sum
overflows. -/
theorem elementAt_overflow (len N i j : ℕ) (h : 2 ^ 31 ≤ i * N + j) :
    elementAt len (i : ℤ) (N : ℤ) (j : ℤ) = none := by
  have hz : (2 : ℤ) ^ 31 ≤ (i : ℤ) * (N : ℤ) + (j : ℤ) := by exact_mod_cast h
  unfold elementAt offsetInt
  cases hp : intResult ((i : ℤ) * (N : ℤ)) with
  | none => rfl
  | some p =>
    have hpe : p = (i : ℤ) * (N : ℤ) := by
      unfold intResult at hp
      split_ifs at hp
      exact (Option.some.inj hp).symm
    have hs : intResult (p + (j : ℤ)) = none := by
      unfold intResult INT_MIN INT_MAX
      rw [if_neg]
      rw [hpe]
      omega
    rw [Option.some_bind, hs]
    rfl

theorem loadAt_eq {R : Type} (N i j : ℕ) (buf : ℕ → R) (hNN : N * N < 2 ^ 31) (hi : i < N)
    (hj : j < N) : loadAt (N * N) buf i N j = some (buf (i * N + j)) := by
  unfold loadAt
  rw [(elementAt_natCast N i j hNN hi hj).2]
  rfl

theorem storeAt_eq {R : Type} (N i j : ℕ) (buf : ℕ → R) (v : R) (hNN : N * N < 2 ^ 31)
    (hi : i < N) (hj : j < N) :
    storeAt (N * N) buf i N j v = some (Function.update buf (i * N + j) v) := by
  unfold storeAt
  rw [(elementAt_natCast N i j hNN hi hj).2]
  rfl

theorem loadAt_overflow {R : Type} (len N i j : ℕ) (buf : ℕ → R) (h : 2 ^ 31 ≤ i * N + j) :
    loadAt len buf i N j = none := by
  unfold loadAt
  rw [elementAt_overflow len N i j h]
  rfl

theorem storeAt_overflow {R : Type} (len N i j : ℕ) (buf : ℕ → R) (v : R)
    (h : 2 ^ 31 ≤ i * N + j) : storeAt len buf i N j v = none := by
  unfold storeAt
  rw [elementAt_overflow len N i j h]
  rfl

/-- Within the `int` range the initialization loop has the result
`initMatricesVal`. -/
theorem initMatrices_eq (N : ℕ) (m : Matrices F32) (hNN : N * N < 2 ^ 31) :
    initMatrices N m = some (initMatricesVal N m) := by
  unfold initMatrices initMatricesVal
  apply forLoopM_eq_some
  intro i hi t
  apply forLoopM_eq_some
  intro j hj u
  rw [storeAt_eq N i j _ _ hNN hi hj, storeAt_eq N i j _ _ hNN hi hj,
    storeAt_eq N i j _ _ hNN hi hj]
  rfl

/-- Beyond the `int` range the initialization loop has no result: the offset
of the last element overflows. -/
theorem initMatrices_overflow (n : ℕ) (m : Matrices F32)
    (h : 2 ^ 31 ≤ n * (n + 1) + n) : initMatrices (n + 1) m = none := by
  unfold initMatrices
  apply forLoopM_none
  intro t
  apply forLoopM_none
  intro u
  rw [storeAt_overflow _ (n + 1) n n _ _ h]
  rfl

theorem innerSum_eq {R : Type} [Zero R] [Add R] [Mul R] (N : ℕ) (A B : ℕ → R) (i j : ℕ)
    (hNN : N * N < 2 ^ 31) (hi : i < N) (hj : j < N) :
    innerSum N A B i j = some (innerSumVal N A B i j) := by
  unfold innerSum innerSumVal
  apply forLoopM_eq_some
  intro k hk s
  rw [loadAt_eq N i k A hNN hi hk, loadAt_eq N k j B hNN hk hj]
  rfl

/-- Within the `int` range one kernel invocation has the result
`sgemmRefVal`. -/
theorem sgemmRef_eq {R : Type} [Zero R] [Add R] [Mul R] (N : ℕ) (alpha beta : R)
    (A B C : ℕ → R) (hNN : N * N < 2 ^ 31) :
    sgemmRef N alpha beta A B C = some (sgemmRefVal N alpha beta A B C) := by
  unfold sgemmRef sgemmRefVal
  apply forLoopM_eq_some
  intro i hi t
  apply forLoopM_eq_some
  intro j hj u
  rw [innerSum_eq N A B i j hNN hi hj, loadAt_eq N i j u hNN hi hj, Option.some_bind,
    Option.some_bind, storeAt_eq N i j u _ hNN hi hj]

/-- Beyond the `int` range a kernel invocation has no result. -/
theorem sgemmRef_overflow {R : Type} [Zero R] [Add R] [Mul R] (n : ℕ) (alpha beta : R)
    (A B C : ℕ → R) (h : 2 ^ 31 ≤ n * (n + 1) + n) :
    sgemmRef (n + 1) alpha beta A B C = none := by
  unfold sgemmRef
  apply forLoopM_none
  intro t
  apply forLoopM_none
  intro u
  rw [loadAt_overflow _ (n + 1) n n u h]
  cases innerSum (n + 1) A B n n <;> rfl

/-- Within the `int` range the repeat loop has the result `repeatLoopVal`. -/
theorem repeatLoop_eq {R : Type} [Zero R] [Add R] [Mul R] (repeats N : ℕ) (alpha beta : R)
    (A B C : ℕ → R) (hNN : N * N < 2 ^ 31) :
    repeatLoop repeats N alpha beta A B C = some (repeatLoopVal repeats N alpha beta A B C) := by
  unfold repeatLoop repeatLoopVal
  apply forLoopM_eq_some
  intro r _ t
  exact sgemmRef_eq N alpha beta A B t hNN

/-- Within the `int` range the verification reduction has the result
`checksumVal`. -/
theorem checksum_eq_val (N : ℕ) (C : ℕ → F32) (hNN : N * N < 2 ^ 31) :
    checksum N C = some (checksumVal N C) := by
  unfold checksum checksumVal
  apply forLoopM_eq_some
  intro i hi t
  apply forLoopM_eq_some
  intro j hj u
  rw [loadAt_eq N i j C hNN hi hj]
  rfl

/-- Within the `int` range the benchmark runs to its end: it prints the two
progress messages and the report, releases the buffers and returns 0. -/
theorem benchmark_eq (c : Config) (m : Matrices F32) (h : c.N.toNat * c.N.toNat < 2 ^ 31) :
    benchmark c m
      = ⟨[Event.print .stdout .performing, Event.print .stdout .calculating,
          Event.print .stdout .newline, Event.print .stdout .rule,
          Event.print .stdout (.finalSum (reportVal c m).finalSum),
          Event.print .stdout (.memory (memoryMB c.N)),
          Event.print .stdout .multiplyTime,
          Event.print .stdout (.flops (flops_computed c.N c.repeats)),
          Event.print .stdout .gflopRate,
          Event.print .stdout .rule, Event.print .stdout .newline,
          Event.free, Event.free, Event.free], .returned 0⟩ := by
  unfold benchmark
  rw [initMatrices_eq _ _ h]
  simp only
  rw [repeatLoop_eq _ _ _ _ _ _ _ h]
  simp only
  rw [checksum_eq_val _ _ h]
  rfl

/-- The benchmark never calls `exit` and never stores through a null
pointer. -/
theorem benchmark_outcome (c : Config) (m : Matrices F32) :
    (benchmark c m).outcome = .returned 0 ∨ (benchmark c m).outcome = .offsetOverflow := by
  unfold benchmark
  cases initMatrices c.N.toNat m with
  | none => exact Or.inr rfl
  | some m0 =>
    simp only
    cases repeatLoop c.repeats.toNat c.N.toNat c.alpha c.beta m0.matrixA m0.matrixB
        m0.matrixC with
    | none => exact Or.inr rfl
    | some C =>
      simp only
      cases checksum c.N.toNat C with
      | none => exact Or.inr rfl
      | some s => exact Or.inl rfl

/-! ## The reference kernel -/

theorem offset_div {N i j : ℕ} (hj : j < N) : (i * N + j) / N = i := by
  have hN : 0 < N := by omega
  rw [Nat.add_comm, Nat.add_mul_div_right _ _ hN, Nat.div_eq_of_lt hj, Nat.zero_add]

theorem offset_mod {N i j : ℕ} (hj : j < N) : (i * N + j) % N = j := by
  rw [Nat.add_comm, Nat.add_mul_mod_self_right, Nat.mod_eq_of_lt hj]

/-- One kernel invocation, offset by offset: inside the matrix the new value
is computed from the old value at the same offset, outside nothing changes. -/
theorem sgemmRefVal_apply {R : Type} [Zero R] [Add R] [Mul R] (N : ℕ) (alpha beta : R)
    (A B C : ℕ → R) (q : ℕ) :
    sgemmRefVal N alpha beta A B C q
      = if q < N * N then alpha * innerSumVal N A B (q / N) (q % N) + beta * C q else C q := by
  rw [← nested_update N (fun p c => alpha * innerSumVal N A B (p / N) (p % N) + beta * c) C q]
  unfold sgemmRefVal
  refine congrFun ?_ q
  apply forLoop_congr
  intro i _ D
  apply forLoop_congr
  intro j hj E
  rw [offset_div hj, offset_mod hj]

theorem innerSumVal_eq_seqSum {R : Type} [Zero R] [Add R] [Mul R] (N : ℕ) (A B : ℕ → R)
    (i j : ℕ) : innerSumVal N A B i j = seqSum N (fun k => A (i * N + k) * B (k * N + j)) := by
  unfold innerSumVal seqSum
  rw [forLoop_eq_foldl]

/-- In a commutative additive monoid the in-order sum is the usual sum. -/
theorem seqSum_eq_sum {R : Type} [AddCommMonoid R] (n : ℕ) (f : ℕ → R) :
    seqSum n f = ∑ k in Finset.range n, f k := by
  unfold seqSum
  induction n with
  | zero => simp
  | succ n ih => rw [List.range_succ, List.foldl_append, ih, Finset.sum_range_succ]; rfl

/-- In exact arithmetic the kernel computes the textbook formula
`alpha * (sum over k < N of A[i*N+k] * B[k*N+j]) + beta * C_old[i*N+j]`. -/
theorem sgemmRefVal_exact {R : Type} [Semiring R] (N : ℕ) (alpha beta : R)
    (A B C : ℕ → R) (i j : ℕ) (hi : i < N) (hj : j < N) :
    sgemmRefVal N alpha beta A B C (i * N + j)
      = alpha * (∑ k in Finset.range N, A (i * N + k) * B (k * N + j))
        + beta * C (i * N + j) := by
  rw [sgemmRefVal_apply, if_pos (offset_lt hi hj), offset_div hj, offset_mod hj,
    innerSumVal_eq_seqSum, seqSum_eq_sum]

/-- Claim C1, amended. For a matrix of at most `2 ^ 31 - 1` elements, one
invocation of the reference kernel is defined and leaves at every offset
`i * N + j` with `i, j < N` the value
`alpha * (A[i*N+0]*B[0*N+j] + ... + A[i*N+N-1]*B[(N-1)*N+j]) + beta * C_old[i*N+j]`,
the products being added in the order of `k`, and `C_old` being the content of
C before the call.  This holds in every arithmetic, rounded or exact. -/
theorem sgemmRef_spec {R : Type} [Zero R] [Add R] [Mul R] (N : ℕ) (alpha beta : R)
    (A B C : ℕ → R) (hNN : N * N ≤ 2 ^ 31 - 1) :
    ∃ Cnew, sgemmRef N alpha beta A B C = some Cnew
      ∧ ∀ i j, i < N → j < N →
        Cnew (i * N + j)
          = alpha * seqSum N (fun k => A (i * N + k) * B (k * N + j)) + beta * C (i * N + j) := by
  refine ⟨sgemmRefVal N alpha beta A B C, sgemmRef_eq N alpha beta A B C (by omega), ?_⟩
  intro i j hi hj
  rw [sgemmRefVal_apply, if_pos (offset_lt hi hj), offset_div hj, offset_mod hj,
    innerSumVal_eq_seqSum]

/-- Claim C1, amended, for a 2 x 2 product of floats. -/
theorem sgemmRef_spec_witness :
    2 * 2 ≤ 2 ^ 31 - 1 ∧
    ∃ Cnew, sgemmRef 2 (natF 24 3) (natF 24 5) (fun p => natF 24 p) (fun p => natF 24 (p + 1))
        (fun _ => natF 24 7) = some Cnew
      ∧ ∀ i j, i < 2 → j < 2 →
        Cnew (i * 2 + j)
          = natF 24 3 * seqSum 2 (fun k => (fun p => natF 24 p) (i * 2 + k)
                * (fun p => natF 24 (p + 1)) (k * 2 + j))
              + natF 24 5 * (fun _ => natF 24 7) (i * 2 + j) :=
  ⟨by norm_num,
    sgemmRef_spec 2 (natF 24 3) (natF 24 5) (fun p => natF 24 p) (fun p => natF 24 (p + 1))
      (fun _ => natF 24 7) (by norm_num)⟩

/-- Claim C1 as stated fails at `n = 46341`: the offset `46340*46341 + 46340`
of the last cell overflows `int`, so the invocation has no defined result. -/
theorem sgemmRef_counterexample :
    sgemmRef 46341 (natF 24 1) (natF 24 1) (fun _ => natF 24 2) (fun _ => natF 24 1)
      (fun _ => natF 24 1) = none :=
  sgemmRef_overflow 46340 (natF 24 1) (natF 24 1) (fun _ => natF 24 2) (fun _ => natF 24 1)
    (fun _ => natF 24 1) (by norm_num)

/-! ## Initialization -/

theorem initMatricesVal_A (N : ℕ) (m : Matrices F32) (p : ℕ) :
    (initMatricesVal N m).matrixA p
      = if p < N * N then (Fl.cast (2.0 : F64) : F32) else m.matrixA p := by
  rw [← nested_update N (fun _ _ => (Fl.cast (2.0 : F64) : F32)) m.matrixA p]
  refine congrFun ?_ p
  unfold initMatricesVal
  apply forLoop_proj Matrices.matrixA
  intro i t
  apply forLoop_proj Matrices.matrixA
  intro j u
  rfl

theorem initMatricesVal_B (N : ℕ) (m : Matrices F32) (p : ℕ) :
    (initMatricesVal N m).matrixB p
      = if p < N * N then (Fl.cast (0.5 : F64) : F32) else m.matrixB p := by
  rw [← nested_update N (fun _ _ => (Fl.cast (0.5 : F64) : F32)) m.matrixB p]
  refine congrFun ?_ p
  unfold initMatricesVal
  apply forLoop_proj Matrices.matrixB
  intro i t
  apply forLoop_proj Matrices.matrixB
  intro j u
  rfl

theorem initMatricesVal_C (N : ℕ) (m : Matrices F32) (p : ℕ) :
    (initMatricesVal N m).matrixC p
      = if p < N * N then (Fl.cast (1.0 : F64) : F32) else m.matrixC p := by
  rw [← nested_update N (fun _ _ => (Fl.cast (1.0 : F64) : F32)) m.matrixC p]
  refine congrFun ?_ p
  unfold initMatricesVal
  apply forLoop_proj Matrices.matrixC
  intro i t
  apply forLoop_proj Matrices.matrixC
  intro j u
  rfl

/-- Claim C10, amended. For an accepted size with `N * N <= 2 ^ 31 - 1` the
initialization loop is defined and, whatever the buffers held before, leaves
2.0 in A, 0.5 in B and 1.0 in C at every offset `p < N * N`. -/
theorem initMatrices_spec (N : ℕ) (m : Matrices F32) (_hN : 128 ≤ N)
    (hNN : N * N ≤ 2 ^ 31 - 1) :
    ∃ m0, initMatrices N m = some m0
      ∧ ∀ p, p < N * N →
        (m0.matrixA p).val = 2 ∧ (m0.matrixB p).val = 1 / 2 ∧ (m0.matrixC p).val = 1 := by
  refine ⟨initMatricesVal N m, initMatrices_eq N m (by omega), ?_⟩
  intro p hp
  rw [initMatricesVal_A, initMatricesVal_B, initMatricesVal_C, if_pos hp, if_pos hp, if_pos hp,
    lit_two, lit_half, lit_one]
  exact ⟨rfl, rfl, rfl⟩

/-- Claim C10, amended, at `N = 128` on buffers that start out holding
zeros. -/
theorem initMatrices_spec_witness :
    128 ≤ 128 ∧ 128 * 128 ≤ 2 ^ 31 - 1 ∧
    ∃ m0, initMatrices 128 ⟨fun _ => 0, fun _ => 0, fun _ => 0⟩ = some m0
      ∧ ∀ p, p < 128 * 128 →
        (m0.matrixA p).val = 2 ∧ (m0.matrixB p).val = 1 / 2 ∧ (m0.matrixC p).val = 1 :=
  ⟨by norm_num, by norm_num,
    initMatrices_spec 128 ⟨fun _ => 0, fun _ => 0, fun _ => 0⟩ (by norm_num) (by norm_num)⟩

/-- Claim C10 as stated fails at the accepted size `N = 46341`: the offset
`46340*46341 + 46340` of the last element overflows `int`, so the
initialization loop has no defined result. -/
theorem initMatrices_counterexample :
    initMatrices 46341 ⟨fun _ => 0, fun _ => 0, fun _ => 0⟩ = none :=
  initMatrices_overflow 46340 ⟨fun _ => 0, fun _ => 0, fun _ => 0⟩ (by norm_num)

/-! ## The kernel on uniform matrices -/

/-- On matrices that hold one value each, every inner product is the same
accumulation and every cell of C gets the same new value. -/
theorem sgemmRefVal_uniform {R : Type} [Zero R] [Add R] [Mul R] (N : ℕ) (alpha beta a b c : R)
    (A B C : ℕ → R) (hA : ∀ p, p < N * N → A p = a) (hB : ∀ p, p < N * N → B p = b)
    (hC : ∀ p, p < N * N → C p = c) (p : ℕ) (hp : p < N * N) :
    sgemmRefVal N alpha beta A B C p
      = alpha * forLoop N (fun _ sum => sum + a * b) 0 + beta * c := by
  obtain ⟨hi, hj, _⟩ := offset_decomp hp
  rw [sgemmRefVal_apply, if_pos hp, hC p hp]
  congr 2
  unfold innerSumVal
  apply forLoop_congr
  intro k hk s
  rw [hA _ (offset_lt hi hk), hB _ (offset_lt hk hj)]

theorem natF_zero (p : ℕ) : (0 : Fl p) = natF p 0 := by
  apply Fl.ext_val
  simp [natF]

theorem two_mul_half : ((⟨2⟩ : F32) * (⟨1 / 2⟩ : F32)) = natF 24 1 := by
  apply Fl.ext_val
  have h : (2 : ℚ) * (1 / 2) = 1 := by norm_num
  rw [Fl.mul_val, h, roundTo_one 24 (by norm_num)]
  simp [natF]

theorem one_eq_natF : (⟨1⟩ : F32) = natF 24 1 := by
  apply Fl.ext_val
  simp [natF]

/-- Adding 1.0 to a `float` sum `n` times from 0 gives `n` as long as `n`
does not exceed `2 ^ 24`. -/
theorem sum_ones (n : ℕ) (hn : n ≤ 2 ^ 24) :
    forLoop n (fun _ (sum : F32) => sum + natF 24 1) 0 = natF 24 n := by
  induction n with
  | zero => exact natF_zero 24
  | succ n ih => rw [forLoop_succ, ih (by omega), natF_add (by norm_num) n 1 hn]

/-- One kernel invocation with `alpha = beta = 1` on A = 2.0, B = 0.5 and
C = `c` throughout: every cell becomes the `float` sum of `N` and `c`. -/
theorem sgemmRefVal_step (N c : ℕ) (hN : N ≤ 2 ^ 24) (hc : c ≤ 2 ^ 24) (A B C : ℕ → F32)
    (hA : ∀ p, p < N * N → A p = ⟨2⟩) (hB : ∀ p, p < N * N → B p = ⟨1 / 2⟩)
    (hC : ∀ p, p < N * N → C p = natF 24 c) (p : ℕ) (hp : p < N * N) :
    sgemmRefVal N (⟨1⟩ : F32) ⟨1⟩ A B C p = natF 24 N + natF 24 c := by
  rw [sgemmRefVal_uniform N _ _ _ _ _ A B C hA hB hC p hp, two_mul_half, sum_ones N hN,
    one_eq_natF, natF_mul (by norm_num) 1 N (by omega), natF_mul (by norm_num) 1 c (by omega),
    Nat.one_mul, Nat.one_mul]

/-- As long as `k * N + 1` does not exceed `2 ^ 24`, `k` invocations on the
initial matrices leave `k * N + 1` everywhere in C. -/
theorem repeatLoopVal_exact (N k : ℕ) (hb : k * N + 1 ≤ 2 ^ 24) (hN : N ≤ 2 ^ 24)
    (A B C : ℕ → F32)
    (hA : ∀ p, p < N * N → A p = ⟨2⟩) (hB : ∀ p, p < N * N → B p = ⟨1 / 2⟩)
    (hC : ∀ p, p < N * N → C p = natF 24 1) (p : ℕ) (hp : p < N * N) :
    repeatLoopVal k N (⟨1⟩ : F32) ⟨1⟩ A B C p = natF 24 (k * N + 1) := by
  induction k generalizing p with
  | zero => simpa [repeatLoopVal] using hC p hp
  | succ k ih =>
    have hk : k * N + 1 ≤ 2 ^ 24 := by
      have : k * N ≤ (k + 1) * N := Nat.mul_le_mul_right N (by omega)
      omega
    have hstep := sgemmRefVal_step N (k * N + 1) hN hk A B (repeatLoopVal k N (⟨1⟩ : F32) ⟨1⟩ A B C)
      hA hB (fun q hq => ih hk q hq) p hp
    have e : N + (k * N + 1) = (k + 1) * N + 1 := by ring
    unfold repeatLoopVal at hstep ⊢
    rw [forLoop_succ, hstep, natF_add (by norm_num) _ _ (by omega), e]

theorem init_A (N : ℕ) (m : Matrices F32) (p : ℕ) (hp : p < N * N) :
    (initMatricesVal N m).matrixA p = ⟨2⟩ := by
  rw [initMatricesVal_A, if_pos hp, lit_two]

theorem init_B (N : ℕ) (m : Matrices F32) (p : ℕ) (hp : p < N * N) :
    (initMatricesVal N m).matrixB p = ⟨1 / 2⟩ := by
  rw [initMatricesVal_B, if_pos hp, lit_half]

theorem init_C (N : ℕ) (m : Matrices F32) (p : ℕ) (hp : p < N * N) :
    (initMatricesVal N m).matrixC p = natF 24 1 := by
  rw [initMatricesVal_C, if_pos hp, lit_one, one_eq_natF]

/-- As long as `k * N + 1` does not exceed `2 ^ 24`, the values after `k`
invocations with `alpha = beta = 1.0` on the initialized buffers are
`k * N + 1` throughout. -/
theorem repeatLoopVal_init (N k : ℕ) (hk : 1 ≤ k) (hb : k * N + 1 ≤ 2 ^ 24)
    (m : Matrices F32) (p : ℕ) (hp : p < N * N) :
    (repeatLoopVal k N (Fl.cast (1.0 : F64) : F32) (Fl.cast (1.0 : F64))
        (initMatricesVal N m).matrixA (initMatricesVal N m).matrixB (initMatricesVal N m).matrixC
        p).val = (k * N + 1 : ℕ) := by
  have hN2 : N ≤ 2 ^ 24 := by
    have : 1 * N ≤ k * N := Nat.mul_le_mul_right N hk
    omega
  rw [lit_one, repeatLoopVal_exact N k hb hN2 _ _ _ (init_A N m) (init_B N m) (init_C N m) p hp]
  rfl

/-- One more invocation after `k` exact ones: every cell holds the `float`
sum of `N` and `k * N + 1`. -/
theorem repeatLoopVal_next (N k : ℕ) (hb : k * N + 1 ≤ 2 ^ 24) (hN : N ≤ 2 ^ 24)
    (A B C : ℕ → F32)
    (hA : ∀ p, p < N * N → A p = ⟨2⟩) (hB : ∀ p, p < N * N → B p = ⟨1 / 2⟩)
    (hC : ∀ p, p < N * N → C p = natF 24 1) (p : ℕ) (hp : p < N * N) :
    repeatLoopVal (k + 1) N (⟨1⟩ : F32) ⟨1⟩ A B C p = natF 24 N + natF 24 (k * N + 1) := by
  have hstep := sgemmRefVal_step N (k * N + 1) hN hb A B (repeatLoopVal k N (⟨1⟩ : F32) ⟨1⟩ A B C)
    hA hB (fun q hq => repeatLoopVal_exact N k hb hN A B C hA hB hC q hq) p hp
  unfold repeatLoopVal at hstep ⊢
  rw [forLoop_succ, hstep]

/-- The values after 131072 invocations at `N = 128`: the last invocation
adds 128 to 16777089, and the `float` nearest to 16777217 is 16777216. -/
theorem repeatLoopVal_rounded :
    (repeatLoopVal 131072 128 (Fl.cast (1.0 : F64) : F32) (Fl.cast (1.0 : F64))
        (initMatricesVal 128 ⟨fun _ => 0, fun _ => 0, fun _ => 0⟩).matrixA
        (initMatricesVal 128 ⟨fun _ => 0, fun _ => 0, fun _ => 0⟩).matrixB
        (initMatricesVal 128 ⟨fun _ => 0, fun _ => 0, fun _ => 0⟩).matrixC
        0).val = 16777216
    ∧ (16777216 : ℚ) ≠ ((131072 * 128 + 1 : ℕ) : ℚ) := by
  constructor
  · have hr := roundTo_odd 24 (by norm_num) 8388608 (by norm_num) (by norm_num)
    rw [show (131072 : ℕ) = 131071 + 1 from rfl, lit_one, repeatLoopVal_next 128 131071 (by norm_num) (by norm_num) _ _ _
      (init_A 128 _) (init_B 128 _) (init_C 128 _) 0 (by norm_num), Fl.add_val]
    simp only [natF]
    norm_num at hr ⊢
    exact hr
  · norm_num

/-- Claim C2, amended. For `N >= 128` with `N * N <= 2 ^ 31 - 1` and `k >= 1`
with `k * N + 1 <= 2 ^ 24`, the initialization and `k` invocations of the
reference kernel with `alpha = beta = 1.0` are defined and leave `k * N + 1` at
every offset of C. -/
theorem repeatLoop_spec (N k : ℕ) (_hN : 128 ≤ N) (hNN : N * N ≤ 2 ^ 31 - 1) (hk : 1 ≤ k)
    (hb : k * N + 1 ≤ 2 ^ 24) (m : Matrices F32) :
    ∃ m0 Cnew, initMatrices N m = some m0
      ∧ repeatLoop k N (Fl.cast (1.0 : F64) : F32) (Fl.cast (1.0 : F64))
          m0.matrixA m0.matrixB m0.matrixC = some Cnew
      ∧ ∀ p, p < N * N → (Cnew p).val = (k * N + 1 : ℕ) :=
  ⟨_, _, initMatrices_eq N m (by omega), repeatLoop_eq k N _ _ _ _ _ (by omega),
    fun p hp => repeatLoopVal_init N k hk hb m p hp⟩

/-- Claim C2, amended, at `N = 128` and four invocations: 513 everywhere. -/
theorem repeatLoop_spec_witness :
    128 ≤ 128 ∧ 128 * 128 ≤ 2 ^ 31 - 1 ∧ 1 ≤ 4 ∧ 4 * 128 + 1 ≤ 2 ^ 24 ∧
    ∃ m0 Cnew, initMatrices 128 ⟨fun _ => 0, fun _ => 0, fun _ => 0⟩ = some m0
      ∧ repeatLoop 4 128 (Fl.cast (1.0 : F64) : F32) (Fl.cast (1.0 : F64))
          m0.matrixA m0.matrixB m0.matrixC = some Cnew
      ∧ ∀ p, p < 128 * 128 → (Cnew p).val = (4 * 128 + 1 : ℕ) :=
  ⟨by norm_num, by norm_num, by norm_num, by norm_num,
    repeatLoop_spec 128 4 (by norm_num) (by norm_num) (by norm_num) (by norm_num)
      ⟨fun _ => 0, fun _ => 0, fun _ => 0⟩⟩

/-- Claim C2 as stated fails at `N = 128`, `k = 131072`: the 131072nd
invocation adds 128 to 16777089, and the `float` nearest to 16777217 is
16777216, which is what the cells of C then hold. -/
theorem repeatLoop_counterexample :
    ∃ m0 Cnew, initMatrices 128 ⟨fun _ => 0, fun _ => 0, fun _ => 0⟩ = some m0
      ∧ repeatLoop 131072 128 (Fl.cast (1.0 : F64) : F32) (Fl.cast (1.0 : F64))
          m0.matrixA m0.matrixB m0.matrixC = some Cnew
      ∧ (Cnew 0).val = 16777216
      ∧ (16777216 : ℚ) ≠ ((131072 * 128 + 1 : ℕ) : ℚ) :=
  ⟨_, _, initMatrices_eq 128 _ (by norm_num), repeatLoop_eq 131072 128 _ _ _ _ _ (by norm_num),
    repeatLoopVal_rounded.1, repeatLoopVal_rounded.2⟩

/-! ## The verification reduction -/

/-- The reduction as one loop over the offsets, and its two components. -/
theorem checksumVal_eq (N : ℕ) (C : ℕ → F32) :
    checksumVal N C
      = (forLoop (N * N) (fun p (s : F32) => s + C p) 0,
         forLoop (N * N)
           (fun _ (c : F32) => (Fl.cast ((Fl.cast c : F64) + (1.0 : F64)) : F32)) 0) := by
  unfold checksumVal
  rw [forLoop_nested N N (fun p (s : F32 × F32) =>
    (s.1 + C p, (Fl.cast ((Fl.cast s.2 : F64) + (1.0 : F64)) : F32))) (0, 0)]
  generalize N * N = n
  induction n with
  | zero => rfl
  | succ n ih => rw [forLoop_succ, ih]; rfl

/-- The statement `count += 1.0` on a count below `2 ^ 24`. -/
theorem count_inc (n : ℕ) (hn : n < 2 ^ 24) :
    (Fl.cast ((Fl.cast (natF 24 n) : F64) + (1.0 : F64)) : F32) = natF 24 (n + 1) := by
  have e1 : (⟨1⟩ : F64) = natF 53 1 := by
    apply Fl.ext_val
    simp [natF]
  rw [lit_one64, natF_cast (by norm_num) n (by norm_num at hn ⊢; omega), e1,
    natF_add (by norm_num) n 1 (by norm_num at hn ⊢; omega),
    natF_cast (by norm_num) (n + 1) (by omega)]

/-- The statement `count += 1.0` on the count `2 ^ 24`: the sum 16777217 is exact in
`double`, and the `float` nearest to it is 16777216 again. -/
theorem count_stuck :
    (Fl.cast ((Fl.cast (natF 24 (2 ^ 24)) : F64) + (1.0 : F64)) : F32) = natF 24 (2 ^ 24) := by
  have e1 : (⟨1⟩ : F64) = natF 53 1 := by
    apply Fl.ext_val
    simp [natF]
  rw [lit_one64, natF_cast (by norm_num) (2 ^ 24) (by norm_num), e1,
    natF_add (by norm_num) (2 ^ 24) 1 (by norm_num)]
  apply Fl.ext_val
  have hr := roundTo_odd 24 (by norm_num) 8388608 (by norm_num) (by norm_num)
  rw [Fl.cast_val]
  simp only [natF]
  norm_num at hr ⊢
  exact hr

/-- The counter after `n` rounds is `n` up to `2 ^ 24` and `2 ^ 24` from
there on. -/
theorem count_loop (n : ℕ) :
    forLoop n (fun _ (c : F32) => (Fl.cast ((Fl.cast c : F64) + (1.0 : F64)) : F32)) 0
      = natF 24 (min n (2 ^ 24)) := by
  induction n with
  | zero => exact natF_zero 24
  | succ n ih =>
    rw [forLoop_succ, ih]
    rcases Nat.lt_or_ge n (2 ^ 24) with h | h
    · rw [Nat.min_eq_left (by omega), Nat.min_eq_left (by omega), count_inc n h]
    · rw [Nat.min_eq_right h, Nat.min_eq_right (by omega), count_stuck]

/-- Adding the same `float` `v` to a sum `n` times from 0 gives `n * v` as
long as that does not exceed `2 ^ 24`. -/
theorem sum_uniform (n v : ℕ) (C : ℕ → F32) (hC : ∀ p, p < n → C p = natF 24 v)
    (hb : n * v ≤ 2 ^ 24) :
    forLoop n (fun p (s : F32) => s + C p) 0 = natF 24 (n * v) := by
  induction n with
  | zero => simpa using natF_zero 24
  | succ n ih =>
    have h1 : n * v ≤ 2 ^ 24 := by
      have : n * v ≤ (n + 1) * v := Nat.mul_le_mul_right v (by omega)
      omega
    have e : n * v + v = (n + 1) * v := by ring
    rw [forLoop_succ, ih (fun p hp => hC p (by omega)) h1, hC n (by omega),
      natF_add (by norm_num) _ _ (by omega), e]

theorem parseArgs_128_4 :
    parseArgs 5 (argvOf [Arg.int 128, Arg.int 4, Arg.dec 1, Arg.dec 1])
      = ([Event.print .stdout (.sizeInput 128), Event.print .stdout (.repeatTimes 4)],
          some ⟨128, 4, ⟨1⟩, ⟨1⟩⟩) := by
  have h : (Fl.cast (Fl.ofRat 1 : F64) : F32) = ⟨1⟩ := by
    apply Fl.ext_val
    rw [Fl.cast_val, Fl.ofRat_val, roundTo_one 53 (by norm_num), roundTo_one 24 (by norm_num)]
  simp [parseArgs, argvOf, Arg.int, Arg.dec, h]

/-- The reduction over a C that holds `v` everywhere. -/
theorem checksumVal_uniform (N v : ℕ) (C : ℕ → F32) (hC : ∀ p, p < N * N → C p = natF 24 v)
    (hb : N * N * v ≤ 2 ^ 24) :
    checksumVal N C = (natF 24 (N * N * v), natF 24 (min (N * N) (2 ^ 24))) := by
  rw [checksumVal_eq, count_loop, sum_uniform (N * N) v C hC hb]

/-- The "Final Sum" of a run with `alpha = beta = 1` whose sums stay within
the integers that `float` represents: the `float` quotient of the sum
`N * N * (k * N + 1)` by the `float` product of the count and `repeats`. -/
theorem reportVal_finalSum (N k : ℕ) (hN : 0 < N) (hb : N * N * (k * N + 1) ≤ 2 ^ 24)
    (m : Matrices F32) :
    (reportVal ⟨(N : ℤ), (k : ℤ), ⟨1⟩, ⟨1⟩⟩ m).finalSum
      = natF 24 (N * N * (k * N + 1)) / (natF 24 (N * N) * natF 24 k) := by
  have hNN : 1 ≤ N * N := Nat.mul_pos hN hN
  have h1 : k * N + 1 ≤ N * N * (k * N + 1) := Nat.le_mul_of_pos_left _ hNN
  have h2 : N * N ≤ N * N * (k * N + 1) := Nat.le_mul_of_pos_right _ (by omega)
  have h3 : N ≤ N * N := Nat.le_mul_of_pos_left _ hN
  have h4 : k ≤ k * N := Nat.le_mul_of_pos_right _ hN
  have hC : ∀ p, p < N * N →
      repeatLoopVal k N (⟨1⟩ : F32) ⟨1⟩ (initMatricesVal N m).matrixA (initMatricesVal N m).matrixB
        (initMatricesVal N m).matrixC p = natF 24 (k * N + 1) :=
    fun p hp => repeatLoopVal_exact N k (by omega) (by omega) _ _ _
      (init_A N m) (init_B N m) (init_C N m) p hp
  have hs := checksumVal_uniform N (k * N + 1) _ hC hb
  unfold reportVal
  simp only [Int.toNat_ofNat]
  rw [hs]
  unfold finalSumReport
  rw [ofInt_natF (by norm_num) k (by omega), Nat.min_eq_left (by omega)]

/-- The "Final Sum" of the run `N = 128`, `repeats = 4`, `alpha = beta = 1`. -/
theorem reportVal_128_4 (m : Matrices F32) :
    (reportVal ⟨128, 4, ⟨1⟩, ⟨1⟩⟩ m).finalSum = ⟨513 / 4⟩ := by
  have h := reportVal_finalSum 128 4 (by norm_num) (by norm_num) m
  simp only [Nat.cast_ofNat] at h
  rw [h, natF_mul (by norm_num) _ _ (by norm_num)]
  apply Fl.ext_val
  have hd := roundTo_natCast_div 24 (by norm_num) 513 2 (by norm_num)
  rw [Fl.div_val]
  simp only [natF]
  norm_num at hd ⊢
  exact hd

/-- Claim C3, amended. The run `N = 128`, `repeats = 4`, `alpha = beta = 1.0`
with the reference kernel prints 128.25 as "Final Sum": every element of C is
513, `final_sum` is `16384 * 513`, and it is divided by `count * repeats`, which
is `16384 * 4`. -/
theorem main_finalSum (A B C : ℕ → F32) :
    Event.print .stdout (.finalSum ⟨513 / 4⟩)
      ∈ (main 5 (argvOf [Arg.int 128, Arg.int 4, Arg.dec 1, Arg.dec 1])
          (some A) (some B) (some C)).events := by
  have hb := benchmark_eq ⟨128, 4, ⟨1⟩, ⟨1⟩⟩ ⟨A, B, C⟩ (show (128 : ℕ) * 128 < 2 ^ 31 by norm_num)
  simp [main, parseArgs_128_4, runConfig, hb, reportVal_128_4]

/-- Claim C3 as stated fails: the run `N = 128`, `repeats = 4`,
`alpha = beta = 1.0` does not print 513 as "Final Sum". -/
theorem main_finalSum_counterexample :
    Event.print .stdout (.finalSum ⟨513⟩)
      ∉ (main 5 (argvOf [Arg.int 128, Arg.int 4, Arg.dec 1, Arg.dec 1])
          (some (fun _ => 0)) (some (fun _ => 0)) (some (fun _ => 0))).events := by
  have hb := benchmark_eq ⟨128, 4, ⟨1⟩, ⟨1⟩⟩ ⟨fun _ => 0, fun _ => 0, fun _ => 0⟩ (show (128 : ℕ) * 128 < 2 ^ 31 by norm_num)
  simp [main, parseArgs_128_4, runConfig, hb, reportVal_128_4]
  norm_num

/-- What argument parsing yields: no configuration when `repeats < 4`, with
the error message as the last thing printed, and otherwise the configuration
with the size and repeat count of `inputN` and `inputRepeats`, everything
printed going to standard output. -/
theorem parseArgs_cases (argc : ℕ) (argv : ℕ → Arg) :
    (inputRepeats argc argv < 4 ∧ ∃ out, parseArgs argc argv = (out, none)
        ∧ ∀ e ∈ out, ∃ s m, e = Event.print s m)
    ∨ (¬ inputRepeats argc argv < 4 ∧ ∃ out alpha beta,
        parseArgs argc argv
          = (out, some ⟨inputN argc argv, inputRepeats argc argv, alpha, beta⟩)
        ∧ ∀ e ∈ out, ∃ m, e = Event.print .stdout m) := by
  unfold parseArgs inputN inputRepeats
  by_cases h1 : argc > 1
  · by_cases h2 : argc > 2
    · by_cases h3 : (argv 2).atoi < 4
      · left
        simp [h1, h2, h3]
      · right
        by_cases h4 : argc > 3
        · by_cases h5 : argc > 4
          · simp [h1, h2, h3, h4, h5]
          · simp [h1, h2, h3, h4, h5]
        · simp [h1, h2, h3, h4]
    · right
      simp [h1, h2]
  · right
    simp [h1]

/-- The run of a configuration with `N < 128`. -/
theorem runConfig_small (c : Config) (mallocA mallocB mallocC : Option (ℕ → F32))
    (h : c.N < 128) :
    runConfig c mallocA mallocB mallocC
      = ⟨[Event.print .stdout (.alphaIs c.alpha), Event.print .stdout (.betaIs c.beta),
          Event.print .stdout (.errSize c.N)], .exit (-1)⟩ := by
  simp [runConfig, h]

/-- The run of a configuration with `N >= 128` when the three allocations
succeed. -/
theorem runConfig_alloc (c : Config) (A B C : ℕ → F32) (h : ¬ c.N < 128) :
    runConfig c (some A) (some B) (some C)
      = ⟨[Event.print .stdout (.alphaIs c.alpha), Event.print .stdout (.betaIs c.beta),
          Event.print .stdout .allocating,
          Event.malloc ((4 * c.N.toNat * c.N.toNat) % 2 ^ 64),
          Event.malloc ((4 * c.N.toNat * c.N.toNat) % 2 ^ 64),
          Event.malloc ((4 * c.N.toNat * c.N.toNat) % 2 ^ 64),
          Event.print .stdout .allocationComplete] ++ (benchmark c ⟨A, B, C⟩).events,
          (benchmark c ⟨A, B, C⟩).outcome⟩ := by
  simp [runConfig, h]

/-- The run of a configuration with `N >= 128` when one of the three
allocations fails. -/
theorem runConfig_null (c : Config) (mallocA mallocB mallocC : Option (ℕ → F32))
    (h : ¬ c.N < 128) (hm : mallocA = none ∨ mallocB = none ∨ mallocC = none) :
    runConfig c mallocA mallocB mallocC
      = ⟨[Event.print .stdout (.alphaIs c.alpha), Event.print .stdout (.betaIs c.beta),
          Event.print .stdout .allocating,
          Event.malloc ((4 * c.N.toNat * c.N.toNat) % 2 ^ 64),
          Event.malloc ((4 * c.N.toNat * c.N.toNat) % 2 ^ 64),
          Event.malloc ((4 * c.N.toNat * c.N.toNat) % 2 ^ 64),
          Event.print .stdout .allocationComplete], .nullStore⟩ := by
  rcases mallocA with _ | A <;> rcases mallocB with _ | B <;> rcases mallocC with _ | C <;>
    simp_all [runConfig]

/-- Nothing that `benchmark` does is an allocation or goes to the error
stream. -/
theorem benchmark_events (c : Config) (m : Matrices F32) (e : Event)
    (he : e ∈ (benchmark c m).events) : (∃ t, e = Event.print .stdout t) ∨ e = Event.free := by
  unfold benchmark at he
  rcases h1 : initMatrices c.N.toNat m with _ | m0
  · simp [h1] at he
  · rw [h1] at he
    simp only at he
    rcases h2 : repeatLoop c.repeats.toNat c.N.toNat c.alpha c.beta m0.matrixA m0.matrixB
        m0.matrixC with _ | C
    · rw [h2] at he
      simp at he
      simp [he]
    · rw [h2] at he
      simp only at he
      rcases h3 : checksum c.N.toNat C with _ | s
      · rw [h3] at he
        simp at he
        rcases he with h | h <;> simp [h]
      · rw [h3] at he
        simp only [reportEvents, List.cons_append, List.nil_append, List.mem_cons,
          List.mem_singleton, List.not_mem_nil, or_false] at he
        rcases he with h | h | h | h | h | h | h | h | h | h | h | h | h | h <;> simp [h]
/-- Claim C4. A run ends in `exit(-1)` (exit status 255) exactly when `N < 128`
or `repeats < 4`; such a run has not called `malloc`; every other run calls
`malloc` three times, each time for `4 * N * N` bytes. -/
theorem main_rejects (argc : ℕ) (argv : ℕ → Arg) (mallocA mallocB mallocC : Option (ℕ → F32)) :
    ((main argc argv mallocA mallocB mallocC).outcome = .exit (-1)
        ↔ (inputN argc argv < 128 ∨ inputRepeats argc argv < 4))
    ∧ ((main argc argv mallocA mallocB mallocC).outcome = .exit (-1)
        → ∀ b, Event.malloc b ∉ (main argc argv mallocA mallocB mallocC).events)
    ∧ ((main argc argv mallocA mallocB mallocC).outcome ≠ .exit (-1)
        → (main argc argv mallocA mallocB mallocC).events.count
            (Event.malloc ((4 * (inputN argc argv).toNat * (inputN argc argv).toNat) % 2 ^ 64))
          = 3)
    ∧ exitStatus (-1) = 255 := by
  rcases parseArgs_cases argc argv with ⟨h, out, hp, ho⟩ | ⟨h, out, a, b, hp, ho⟩
  · have hm : main argc argv mallocA mallocB mallocC = ⟨out, .exit (-1)⟩ := by
      simp [main, hp]
    rw [hm]
    refine ⟨by simp [h], ?_, by simp, by decide⟩
    intro _ b hb
    obtain ⟨s, m, hsm⟩ := ho _ hb
    cases hsm
  · have hout : ∀ b, Event.malloc b ∉ out := by
      intro b hb
      obtain ⟨m, hm⟩ := ho _ hb
      cases hm
    by_cases hN : inputN argc argv < 128
    · have hm : main argc argv mallocA mallocB mallocC
          = ⟨out ++ [Event.print .stdout (.alphaIs a), Event.print .stdout (.betaIs b),
              Event.print .stdout (.errSize (inputN argc argv))], .exit (-1)⟩ := by
        simp [main, hp, runConfig_small ⟨inputN argc argv, inputRepeats argc argv, a, b⟩ mallocA mallocB mallocC hN]
      rw [hm]
      refine ⟨by simp [hN], ?_, by simp, by decide⟩
      intro _ b hb
      rcases List.mem_append.mp hb with h1 | h1
      · exact hout b h1
      · simp at h1
    · by_cases hall : mallocA = none ∨ mallocB = none ∨ mallocC = none
      · have hm : main argc argv mallocA mallocB mallocC
            = ⟨out ++ [Event.print .stdout (.alphaIs a), Event.print .stdout (.betaIs b),
                Event.print .stdout .allocating,
                Event.malloc ((4 * (inputN argc argv).toNat * (inputN argc argv).toNat) % 2 ^ 64),
                Event.malloc ((4 * (inputN argc argv).toNat * (inputN argc argv).toNat) % 2 ^ 64),
                Event.malloc ((4 * (inputN argc argv).toNat * (inputN argc argv).toNat) % 2 ^ 64),
                Event.print .stdout .allocationComplete], .nullStore⟩ := by
          simp [main, hp, runConfig_null ⟨inputN argc argv, inputRepeats argc argv, a, b⟩ mallocA mallocB mallocC hN hall]
        rw [hm]
        refine ⟨by simp [hN, h], by simp, ?_, by decide⟩
        intro _
        rw [List.count_append, List.count_eq_zero.mpr (hout _)]
        simp [List.count_cons]
      · obtain ⟨A, rfl⟩ : ∃ A, mallocA = some A := by
          rcases mallocA with _ | A
          · simp at hall
          · exact ⟨A, rfl⟩
        obtain ⟨B, rfl⟩ : ∃ B, mallocB = some B := by
          rcases mallocB with _ | B
          · simp at hall
          · exact ⟨B, rfl⟩
        obtain ⟨C, rfl⟩ : ∃ C, mallocC = some C := by
          rcases mallocC with _ | C
          · simp at hall
          · exact ⟨C, rfl⟩
        have hm : main argc argv (some A) (some B) (some C)
            = ⟨out ++ ([Event.print .stdout (.alphaIs a), Event.print .stdout (.betaIs b),
                Event.print .stdout .allocating,
                Event.malloc ((4 * (inputN argc argv).toNat * (inputN argc argv).toNat) % 2 ^ 64),
                Event.malloc ((4 * (inputN argc argv).toNat * (inputN argc argv).toNat) % 2 ^ 64),
                Event.malloc ((4 * (inputN argc argv).toNat * (inputN argc argv).toNat) % 2 ^ 64),
                Event.print .stdout .allocationComplete]
                ++ (benchmark ⟨inputN argc argv, inputRepeats argc argv, a, b⟩ ⟨A, B, C⟩).events),
                (benchmark ⟨inputN argc argv, inputRepeats argc argv, a, b⟩ ⟨A, B, C⟩).outcome⟩ := by
          simp [main, hp, runConfig_alloc ⟨inputN argc argv, inputRepeats argc argv, a, b⟩ A B C hN]
        have hne : (benchmark ⟨inputN argc argv, inputRepeats argc argv, a, b⟩ ⟨A, B, C⟩).outcome
            ≠ .exit (-1) := by
          rcases benchmark_outcome ⟨inputN argc argv, inputRepeats argc argv, a, b⟩ ⟨A, B, C⟩
            with h1 | h1 <;> rw [h1] <;> simp
        rw [hm]
        refine ⟨by simp [hN, h, hne], fun hc => absurd hc hne, ?_, by decide⟩
        intro _
        have hbench : ∀ x, Event.malloc x
            ∉ (benchmark ⟨inputN argc argv, inputRepeats argc argv, a, b⟩ ⟨A, B, C⟩).events := by
          intro x hx
          rcases benchmark_events _ _ _ hx with ⟨t, ht⟩ | ht <;> cases ht
        rw [List.count_append, List.count_append, List.count_eq_zero.mpr (hout _),
          List.count_eq_zero.mpr (hbench _)]
        simp [List.count_cons]

/-- Claim C4 at its boundary: `N = 128` with `repeats = 4` is not rejected,
`N = 127` is, and `repeats = 3` is. -/
theorem main_rejects_witness :
    (main 3 (argvOf [Arg.int 128, Arg.int 4]) none none none).outcome ≠ .exit (-1)
    ∧ (main 3 (argvOf [Arg.int 127, Arg.int 4]) none none none).outcome = .exit (-1)
    ∧ (main 3 (argvOf [Arg.int 128, Arg.int 3]) none none none).outcome = .exit (-1) := by
  refine ⟨?_, ?_, ?_⟩
  · rw [Ne, (main_rejects 3 (argvOf [Arg.int 128, Arg.int 4]) none none none).1]
    simp [inputN, inputRepeats, argvOf, Arg.int]
  · rw [(main_rejects 3 (argvOf [Arg.int 127, Arg.int 4]) none none none).1]
    simp [inputN, inputRepeats, argvOf, Arg.int]
  · rw [(main_rejects 3 (argvOf [Arg.int 128, Arg.int 3]) none none none).1]
    simp [inputN, inputRepeats, argvOf, Arg.int]

/-- Claim C7, amended. The driver does not test the result of `malloc`: when
the configuration is accepted and one of the three allocations fails, nothing
is written to the error stream, "Allocation complete" is the last message, and
the run ends in the initialization loop with a store through a null pointer,
not with an exit status of its choice. -/
theorem main_alloc_failure (argc : ℕ) (argv : ℕ → Arg)
    (mallocA mallocB mallocC : Option (ℕ → F32))
    (hcfg : ¬ (inputN argc argv < 128 ∨ inputRepeats argc argv < 4))
    (hm : mallocA = none ∨ mallocB = none ∨ mallocC = none) :
    (main argc argv mallocA mallocB mallocC).outcome = .nullStore
    ∧ (∀ m, Event.print .stderr m ∉ (main argc argv mallocA mallocB mallocC).events)
    ∧ (main argc argv mallocA mallocB mallocC).events.getLast?
        = some (Event.print .stdout .allocationComplete) := by
  rw [not_or] at hcfg
  obtain ⟨hN, hR⟩ := hcfg
  rcases parseArgs_cases argc argv with ⟨h, _⟩ | ⟨_, out, a, b, hp, ho⟩
  · exact absurd h hR
  · have hmain : main argc argv mallocA mallocB mallocC
        = ⟨out ++ [Event.print .stdout (.alphaIs a), Event.print .stdout (.betaIs b),
            Event.print .stdout .allocating,
            Event.malloc ((4 * (inputN argc argv).toNat * (inputN argc argv).toNat) % 2 ^ 64),
            Event.malloc ((4 * (inputN argc argv).toNat * (inputN argc argv).toNat) % 2 ^ 64),
            Event.malloc ((4 * (inputN argc argv).toNat * (inputN argc argv).toNat) % 2 ^ 64),
            Event.print .stdout .allocationComplete], .nullStore⟩ := by
      simp [main, hp, runConfig_null ⟨inputN argc argv, inputRepeats argc argv, a, b⟩
        mallocA mallocB mallocC hN hm]
    rw [hmain]
    refine ⟨rfl, ?_, ?_⟩
    · intro m hmem
      rcases List.mem_append.mp hmem with h1 | h1
      · obtain ⟨t, ht⟩ := ho _ h1
        cases ht
      · simp at h1
    · simp [List.getLast?_append]

/-- Claim C7, amended, for the default configuration when the first
allocation fails. -/
theorem main_alloc_failure_witness :
    ¬ (inputN 1 (argvOf []) < 128 ∨ inputRepeats 1 (argvOf []) < 4)
    ∧ ((none : Option (ℕ → F32)) = none
        ∨ some (fun _ : ℕ => (0 : F32)) = none ∨ some (fun _ : ℕ => (0 : F32)) = none)
    ∧ (main 1 (argvOf []) none (some (fun _ => 0)) (some (fun _ => 0))).outcome = .nullStore
    ∧ (∀ m, Event.print .stderr m
        ∉ (main 1 (argvOf []) none (some (fun _ => 0)) (some (fun _ => 0))).events)
    ∧ (main 1 (argvOf []) none (some (fun _ => 0)) (some (fun _ => 0))).events.getLast?
        = some (Event.print .stdout .allocationComplete) :=
  ⟨by simp [inputN, inputRepeats], Or.inl rfl,
    main_alloc_failure 1 (argvOf []) none (some (fun _ => 0)) (some (fun _ => 0))
      (by simp [inputN, inputRepeats]) (Or.inl rfl)⟩

/-- Claim C7 as stated fails: with the default configuration and all three
allocations failing, the run prints only to standard output, its last message
being "Allocation complete", and ends by storing through a null pointer. -/
theorem main_alloc_failure_counterexample :
    main 1 (argvOf []) none none none
      = ⟨[Event.print .stdout (.sizeDefaulted 256),
          Event.print .stdout (.alphaIs ⟨1⟩), Event.print .stdout (.betaIs ⟨1⟩),
          Event.print .stdout .allocating,
          Event.malloc 262144, Event.malloc 262144, Event.malloc 262144,
          Event.print .stdout .allocationComplete], .nullStore⟩ := by
  simp [main, parseArgs, runConfig, lit_one]

/-- Claim C8 fails on the code: for `N = 100` the size error is written with
`printf`, to standard output; the run writes nothing to the error stream. -/
theorem main_size_error_stream (mallocA mallocB mallocC : Option (ℕ → F32)) :
    main 2 (argvOf [Arg.int 100]) mallocA mallocB mallocC
      = ⟨[Event.print .stdout (.sizeInput 100), Event.print .stdout (.repeatDefaulted 8),
          Event.print .stdout (.alphaIs ⟨1⟩), Event.print .stdout (.betaIs ⟨1⟩),
          Event.print .stdout (.errSize 100)], .exit (-1)⟩ := by
  simp [main, parseArgs, runConfig, lit_one, argvOf, Arg.int]

/-! ## The reported operation count and memory footprint -/

/-- A natural number up to `2 ^ p` times a power of two is a float. -/
theorem roundTo_natCast_zpow (p : ℕ) (hp : 0 < p) (n : ℕ) (e : ℤ) (hn : n ≤ 2 ^ p) :
    roundTo p ((n : ℚ) * (2 : ℚ) ^ e) = (n : ℚ) * (2 : ℚ) ^ e := by
  rcases Nat.lt_or_ge n (2 ^ p) with h | h
  · have hz : |(n : ℤ)| < 2 ^ p := by
      rw [abs_of_nonneg (by positivity)]
      exact_mod_cast h
    simpa using roundTo_exact p n e hz
  · have hn2 : n = 2 ^ p := le_antisymm hn h
    obtain ⟨j, rfl⟩ : ∃ j, p = j + 1 := ⟨p - 1, by omega⟩
    have h1 : |((2 : ℤ) ^ j)| < 2 ^ (j + 1) := by
      rw [abs_of_nonneg (by positivity), pow_succ]
      have : (0 : ℤ) < 2 ^ j := by positivity
      omega
    have := roundTo_exact (j + 1) (2 ^ j) (1 + e) h1
    have e2 : (((2 : ℤ) ^ j : ℤ) : ℚ) * (2 : ℚ) ^ (1 + e) = (n : ℚ) * (2 : ℚ) ^ e := by
      rw [hn2, zpow_add₀ (by norm_num)]
      push_cast
      rw [pow_succ]
      simp
      ring
    rwa [e2] at this

/-- The first three factors of both products: `N_dbl * N_dbl` is exact as
long as `N * N` does not exceed `2 ^ 24`. -/
theorem N_dbl_sq (N : ℕ) (h : N * N ≤ 2 ^ 24) :
    N_dbl (N : ℤ) * N_dbl (N : ℤ) = natF 24 (N * N) := by
  have hN : N ≤ 2 ^ 24 := le_trans (Nat.le_mul_self N) h
  unfold N_dbl
  rw [ofInt_natF (by norm_num) N hN, natF_mul (by norm_num) N N h]

/-- The operation count, given the `float` `c` that the product
`N_dbl * N_dbl * N_dbl` rounds to, when nothing else is rounded. -/
theorem flops_general (N r c : ℕ) (hsq : N * N ≤ 2 ^ 24) (h2 : N * N * 2 * r ≤ 2 ^ 24)
    (hN : 0 < N) (hr0 : 0 < r) (hc : natF 24 (N * N) * natF 24 N = natF 24 c)
    (hcb : c ≤ 2 ^ 27) :
    flops_computed (N : ℤ) (r : ℤ) = natF 53 (c * 2 * r + N * N * 2 * r) := by
  have hN1 : N ≤ 2 ^ 24 := le_trans (Nat.le_mul_self N) hsq
  have hr : r ≤ 2 ^ 24 := by
    have : 1 * r ≤ N * N * 2 * r := Nat.mul_le_mul_right r (by nlinarith)
    omega
  have hbig : c * 2 * r ≤ 2 ^ 52 := by
    calc c * 2 * r ≤ 2 ^ 27 * 2 * 2 ^ 24 :=
          Nat.mul_le_mul (Nat.mul_le_mul_right 2 hcb) hr
      _ = 2 ^ 52 := by norm_num
  have e2 : (⟨2⟩ : F64) = natF 53 2 := by
    apply Fl.ext_val
    simp [natF]
  unfold flops_computed
  rw [N_dbl_sq N hsq]
  unfold N_dbl
  rw [ofInt_natF (by norm_num) N hN1, ofInt_natF (by norm_num) r hr, hc,
    show (Fl.ofInt 2 : F32) = natF 24 2 from ofInt_natF (by norm_num) 2 (by norm_num),
    natF_mul (by norm_num) (N * N) 2 (le_trans (Nat.le_mul_of_pos_right _ hr0) h2),
    natF_mul (by norm_num) _ _ h2,
    natF_cast (by norm_num) c (by norm_num at hcb ⊢; omega),
    natF_cast (by norm_num) r (by norm_num at hr ⊢; omega),
    natF_cast (by norm_num) (N * N * 2 * r) (by norm_num at h2 ⊢; omega),
    lit_two64, e2, natF_mul (by norm_num) c 2 (by norm_num at hcb ⊢; omega),
    natF_mul (by norm_num) _ _ (by norm_num at hbig ⊢; omega),
    natF_add (by norm_num) _ _ (by norm_num at hbig h2 ⊢; omega)]

/-- Claim C5, amended. For an accepted size and repeat count with
`N ^ 3 <= 2 ^ 24` and `2 * N ^ 2 * repeats <= 2 ^ 24` (so `N <= 256` and
`repeats <= 512`), the reported operation count is
`2 * N ^ 3 * repeats + 2 * N ^ 2 * repeats`. -/
theorem flops_computed_spec (N r : ℕ) (hN : 128 ≤ N) (_hr : 4 ≤ r) (h3 : N ^ 3 ≤ 2 ^ 24)
    (h2 : 2 * N ^ 2 * r ≤ 2 ^ 24) :
    (flops_computed (N : ℤ) (r : ℤ)).val = ((2 * N ^ 3 * r + 2 * N ^ 2 * r : ℕ) : ℚ) := by
  have h3b : N * N * N ≤ 2 ^ 24 := by
    have : N * N * N = N ^ 3 := by ring
    omega
  have h2b : N * N * 2 * r ≤ 2 ^ 24 := by
    have : N * N * 2 * r = 2 * N ^ 2 * r := by ring
    omega
  have hsq : N * N ≤ 2 ^ 24 := le_trans (Nat.le_mul_of_pos_right _ (by omega)) h3b
  rw [flops_general N r (N * N * N) hsq h2b (by omega) (by omega)
    (natF_mul (by norm_num) _ _ h3b) (by omega)]
  have e : N * N * N * 2 * r + N * N * 2 * r = 2 * N ^ 3 * r + 2 * N ^ 2 * r := by ring
  rw [e]
  rfl

/-- Claim C5, amended, at `N = 128`, `repeats = 4`: 16,908,288 operations. -/
theorem flops_computed_spec_witness :
    128 ≤ 128 ∧ 4 ≤ 4 ∧ 128 ^ 3 ≤ 2 ^ 24 ∧ 2 * 128 ^ 2 * 4 ≤ 2 ^ 24
    ∧ (flops_computed ((128 : ℕ) : ℤ) ((4 : ℕ) : ℤ)).val
        = ((2 * 128 ^ 3 * 4 + 2 * 128 ^ 2 * 4 : ℕ) : ℚ)
    ∧ 2 * 128 ^ 3 * 4 + 2 * 128 ^ 2 * 4 = 16908288 :=
  ⟨by decide, by decide, by norm_num, by norm_num,
    flops_computed_spec 128 4 (by decide) (by decide) (by norm_num) (by norm_num),
    by norm_num⟩

/-- Claim C5 as stated fails at `N = 257`, `repeats = 4`: the `float` product
`N_dbl * N_dbl * N_dbl` is 16974592, not `257 ^ 3 = 16974593`, and the reported
count is 136325128, not 136325136. -/
theorem flops_computed_counterexample :
    (flops_computed 257 4).val = 136325128
    ∧ (136325128 : ℚ) ≠ ((2 * 257 ^ 3 * 4 + 2 * 257 ^ 2 * 4 : ℕ) : ℚ) := by
  constructor
  · have hc : natF 24 (257 * 257) * natF 24 257 = natF 24 16974592 := by
      apply Fl.ext_val
      have hr := roundTo_odd 24 (by norm_num) 8487296 (by norm_num) (by norm_num)
      rw [Fl.mul_val]
      simp only [natF]
      norm_num at hr ⊢
      exact hr
    have h := flops_general 257 4 16974592 (by norm_num) (by norm_num) (by norm_num)
      (by norm_num) hc (by norm_num)
    simp only [Nat.cast_ofNat] at h
    rw [h]
    simp only [natF]
    norm_num
  · norm_num

/-- The memory footprint, given the `float` `c = m * 2 ^ j` that the product
`3 * N_dbl * N_dbl` rounds to: the factor 4 and the division by `1024 * 1024`
only change the exponent. -/
theorem memory_general (N c m j : ℕ) (hN : 3 * N ≤ 2 ^ 24)
    (hc : natF 24 (3 * N) * natF 24 N = natF 24 c) (hcm : c = m * 2 ^ j) (hm : m ≤ 2 ^ 24) :
    (memoryMB (N : ℤ)).val = (c : ℚ) * 4 / (1024 * 1024) := by
  have h3 : (Fl.ofInt 3 : F32) = natF 24 3 := ofInt_natF (by norm_num) 3 (by norm_num)
  have e4 : roundTo 24 ((4 : ℤ) : ℚ) = 4 := by
    simpa using roundTo_natCast 24 (by norm_num) 4 (by norm_num)
  have eM : roundTo 24 (((1024 * 1024 : ℤ)) : ℚ) = 1024 * 1024 := by
    have := roundTo_natCast 24 (by norm_num) (1024 * 1024) (by norm_num)
    norm_num at this ⊢
    exact this
  have em : roundTo 24 ((c : ℚ) * 4) = (c : ℚ) * 4 := by
    have := roundTo_natCast_zpow 24 (by norm_num) m ((j : ℤ) + 2) hm
    have e : (c : ℚ) * 4 = (m : ℚ) * (2 : ℚ) ^ ((j : ℤ) + 2) := by
      rw [hcm, zpow_add₀ (by norm_num)]
      push_cast
      norm_num
      ring
    rw [e]
    exact this
  have ed : roundTo 24 ((c : ℚ) * 4 / (1024 * 1024)) = (c : ℚ) * 4 / (1024 * 1024) := by
    have := roundTo_natCast_zpow 24 (by norm_num) m ((j : ℤ) + (-18)) hm
    have e : (c : ℚ) * 4 / (1024 * 1024) = (m : ℚ) * (2 : ℚ) ^ ((j : ℤ) + (-18)) := by
      rw [hcm, zpow_add₀ (by norm_num), zpow_neg]
      push_cast
      norm_num
      ring
    rw [e]
    exact this
  unfold memoryMB matrix_memory N_dbl
  rw [h3, ofInt_natF (by norm_num) N (by omega), natF_mul (by norm_num) 3 N hN, hc,
    Fl.div_val, Fl.mul_val, Fl.ofInt_val, Fl.ofInt_val, e4, eM]
  simp only [natF]
  rw [em, ed]

/-- Claim C6, amended. For an accepted size with `3 * N ^ 2 <= 2 ^ 24`
(`N <= 2364`) the reported memory footprint is exactly
`3 * N ^ 2 * 4 / (1024 * 1024)`. -/
theorem memoryMB_spec (N : ℕ) (_hN : 128 ≤ N) (hb : 3 * N ^ 2 ≤ 2 ^ 24) :
    (memoryMB (N : ℤ)).val = (3 * (N : ℚ) ^ 2 * 4) / (1024 * 1024) := by
  have hb2 : 3 * N * N ≤ 2 ^ 24 := by
    have : 3 * N * N = 3 * N ^ 2 := by ring
    omega
  have h3N : 3 * N ≤ 2 ^ 24 := le_trans (Nat.le_mul_of_pos_right _ (by omega)) hb2
  rw [memory_general N (3 * N * N) (3 * N * N) 0 h3N (natF_mul (by norm_num) _ _ hb2)
    (by simp) hb2]
  push_cast
  ring

/-- Claim C6, amended, at `N = 128`: 0.1875 MB. -/
theorem memoryMB_spec_witness :
    128 ≤ 128 ∧ 3 * 128 ^ 2 ≤ 2 ^ 24
    ∧ (memoryMB ((128 : ℕ) : ℤ)).val = (3 * ((128 : ℕ) : ℚ) ^ 2 * 4) / (1024 * 1024) :=
  ⟨by decide, by norm_num, memoryMB_spec 128 (by decide) (by norm_num)⟩

/-- Claim C6 as stated fails at `N = 2365`: the `float` product
`3 * N_dbl * N_dbl` is 16779676, not `3 * 2365 ^ 2 = 16779675`, so the reported
footprint is `67118704 / 1048576`, not `67118700 / 1048576`. -/
theorem memoryMB_counterexample :
    (memoryMB 2365).val = 67118704 / 1048576
    ∧ (67118704 / 1048576 : ℚ) ≠ (3 * 2365 ^ 2 * 4) / (1024 * 1024) := by
  constructor
  · have hc : natF 24 (3 * 2365) * natF 24 2365 = natF 24 16779676 := by
      apply Fl.ext_val
      have hr := roundTo_odd 24 (by norm_num) 8389837 (by norm_num) (by norm_num)
      rw [Fl.mul_val]
      simp only [natF]
      norm_num at hr ⊢
      exact hr
    have h := memory_general 2365 16779676 8389838 1 (by norm_num) hc (by norm_num)
      (by norm_num)
    simp only [Nat.cast_ofNat] at h
    rw [h]
    norm_num
  · norm_num

/-! ## The configuration read from the command line -/

/-- Claim C11. Argument parsing ends the run exactly when a second argument
is given and is below 4. Otherwise it yields the configuration in which N is
the first argument or 256, `repeats` the second or 8, `alpha` the third (as a
`float`) or 1.0 and `beta` the fourth (as a `float`) or 1.0. -/
theorem parseArgs_spec (argc : ℕ) (argv : ℕ → Arg) :
    ((parseArgs argc argv).2 = none ↔ (2 < argc ∧ (argv 2).atoi < 4))
    ∧ (∀ c, (parseArgs argc argv).2 = some c →
        c.N = (if 1 < argc then (argv 1).atoi else 256)
        ∧ c.repeats = (if 2 < argc then (argv 2).atoi else 8)
        ∧ c.alpha = (if 3 < argc then Fl.cast (argv 3).atof else ⟨1⟩)
        ∧ c.beta = (if 4 < argc then Fl.cast (argv 4).atof else ⟨1⟩)) := by
  unfold parseArgs
  by_cases h1 : argc > 1
  · by_cases h2 : argc > 2
    · by_cases h3 : (argv 2).atoi < 4
      · simp [h1, h2, h3]
      · by_cases h4 : argc > 3
        · by_cases h5 : argc > 4
          · constructor
            · simp [h1, h2, h3, h4, h5]
            · intro c hc
              simp only [h1, h2, h3, h4, h5, if_true, if_false, Option.some.injEq] at hc
              subst hc
              simp [h1, h2, h4, h5]
          · constructor
            · simp [h1, h2, h3, h4, h5]
            · intro c hc
              simp only [h1, h2, h3, h4, h5, if_true, if_false, Option.some.injEq] at hc
              subst hc
              simp [h1, h2, h4, h5, lit_one]
        · constructor
          · simp [h1, h2, h3, h4]
          · intro c hc
            simp only [h1, h2, h3, h4, if_true, if_false, Option.some.injEq] at hc
            subst hc
            have h5 : ¬ 4 < argc := by omega
            simp [h1, h2, h4, h5, lit_one]
    · constructor
      · simp [h1, h2]
      · intro c hc
        simp only [h1, h2, if_true, if_false, Option.some.injEq] at hc
        subst hc
        have h4 : ¬ 3 < argc := by omega
        have h5 : ¬ 4 < argc := by omega
        simp [h1, h2, h4, h5, lit_one]
  · constructor
    · have h2 : ¬ 2 < argc := by omega
      simp [h1, h2]
    · intro c hc
      simp only [h1, if_false, Option.some.injEq] at hc
      subst hc
      have h2 : ¬ 2 < argc := by omega
      have h4 : ¬ 3 < argc := by omega
      have h5 : ¬ 4 < argc := by omega
      simp [h1, h2, h4, h5, lit_one]

/-- Claim C11 on three command lines: no argument, the size alone, and all
four arguments. -/
theorem parseArgs_spec_witness :
    (parseArgs 1 (argvOf [])).2 = some ⟨256, 8, ⟨1⟩, ⟨1⟩⟩
    ∧ (parseArgs 2 (argvOf [Arg.int 512])).2 = some ⟨512, 8, ⟨1⟩, ⟨1⟩⟩
    ∧ (∀ c, (parseArgs 5 (argvOf [Arg.int 512, Arg.int 16, Arg.dec 2, Arg.dec 3])).2 = some c →
        c.N = (if 1 < 5 then (argvOf [Arg.int 512, Arg.int 16, Arg.dec 2, Arg.dec 3] 1).atoi
          else 256)
        ∧ c.repeats
          = (if 2 < 5 then (argvOf [Arg.int 512, Arg.int 16, Arg.dec 2, Arg.dec 3] 2).atoi else 8)
        ∧ c.alpha = (if 3 < 5 then
            Fl.cast (argvOf [Arg.int 512, Arg.int 16, Arg.dec 2, Arg.dec 3] 3).atof else ⟨1⟩)
        ∧ c.beta = (if 4 < 5 then
            Fl.cast (argvOf [Arg.int 512, Arg.int 16, Arg.dec 2, Arg.dec 3] 4).atof else ⟨1⟩)) := by
  refine ⟨?_, ?_, (parseArgs_spec 5 (argvOf [Arg.int 512, Arg.int 16, Arg.dec 2, Arg.dec 3])).2⟩
  · simp [parseArgs, lit_one]
  · simp [parseArgs, lit_one, argvOf, Arg.int]

/-! ## The kernel on the memory of the three buffers -/

/-- The column loop on the memory: A and B stay, C gets the stores of the
row body. -/
theorem columnLoop_state {R : Type} [Zero R] [Add R] [Mul R] (N : ℕ) (alpha beta : R)
    (i n : ℕ) (m : Matrices R) :
    forLoop n (fun j (m : Matrices R) =>
        let sum := forLoop N
          (fun k sum => sum + m.matrixA (i * N + k) * m.matrixB (k * N + j)) 0
        { m with
          matrixC := Function.update m.matrixC (i * N + j)
            (alpha * sum + beta * m.matrixC (i * N + j)) }) m
      = ⟨m.matrixA, m.matrixB,
          forLoop n (fun j C => Function.update C (i * N + j)
            (alpha * innerSumVal N m.matrixA m.matrixB i j + beta * C (i * N + j))) m.matrixC⟩ := by
  induction n with
  | zero => rfl
  | succ n ih => rw [forLoop_succ, ih]; rfl

/-- The row loop on the memory, run for `n` rows. -/
theorem rowLoop_state {R : Type} [Zero R] [Add R] [Mul R] (N : ℕ) (alpha beta : R)
    (n : ℕ) (m : Matrices R) :
    forLoop n (fun i (m : Matrices R) =>
      forLoop N (fun j (m : Matrices R) =>
        let sum := forLoop N
          (fun k sum => sum + m.matrixA (i * N + k) * m.matrixB (k * N + j)) 0
        { m with
          matrixC := Function.update m.matrixC (i * N + j)
            (alpha * sum + beta * m.matrixC (i * N + j)) }) m) m
      = ⟨m.matrixA, m.matrixB,
          forLoop n (fun i C =>
            forLoop N (fun j C => Function.update C (i * N + j)
              (alpha * innerSumVal N m.matrixA m.matrixB i j + beta * C (i * N + j))) C)
            m.matrixC⟩ := by
  induction n with
  | zero => rfl
  | succ n ih => rw [forLoop_succ, ih, columnLoop_state]; rfl

/-- Within the `int` range one kernel invocation on the memory has a result:
A and B stay, C becomes what `sgemmRefVal` computes from the three buffers. -/
theorem sgemmRefState_eq {R : Type} [Zero R] [Add R] [Mul R] (N : ℕ) (alpha beta : R)
    (m : Matrices R) (hNN : N * N < 2 ^ 31) :
    sgemmRefState N alpha beta m
      = some ⟨m.matrixA, m.matrixB, sgemmRefVal N alpha beta m.matrixA m.matrixB m.matrixC⟩ := by
  have h : sgemmRefState N alpha beta m
      = some (forLoop N (fun i (m : Matrices R) =>
          forLoop N (fun j (m : Matrices R) =>
            let sum := forLoop N
              (fun k sum => sum + m.matrixA (i * N + k) * m.matrixB (k * N + j)) 0
            { m with
              matrixC := Function.update m.matrixC (i * N + j)
                (alpha * sum + beta * m.matrixC (i * N + j)) }) m) m) := by
    unfold sgemmRefState
    apply forLoopM_eq_some
    intro i hi t
    apply forLoopM_eq_some
    intro j hj u
    have hs := innerSum_eq N u.matrixA u.matrixB i j hNN hi hj
    unfold innerSum innerSumVal at hs
    rw [hs, loadAt_eq N i j u.matrixC hNN hi hj, Option.some_bind, Option.some_bind,
      storeAt_eq N i j u.matrixC _ hNN hi hj]
    rfl
  rw [h, rowLoop_state]
  rfl

/-- Beyond the `int` range a kernel invocation on the memory has no result. -/
theorem sgemmRefState_overflow {R : Type} [Zero R] [Add R] [Mul R] (n : ℕ) (alpha beta : R)
    (m : Matrices R) (h : 2 ^ 31 ≤ n * (n + 1) + n) :
    sgemmRefState (n + 1) alpha beta m = none := by
  unfold sgemmRefState
  apply forLoopM_none
  intro t
  apply forLoopM_none
  intro u
  rw [loadAt_overflow _ (n + 1) n n u.matrixC h]
  cases forLoopM (n + 1) (fun k sum =>
    (loadAt ((n + 1) * (n + 1)) u.matrixA n (n + 1) k).bind fun a =>
    (loadAt ((n + 1) * (n + 1)) u.matrixB k (n + 1) n).map fun b => sum + a * b) 0 <;> rfl

/-- Within the `int` range the repeat loop on the memory has a result: A and B
stay, C becomes what `repeatLoopVal` computes from the three buffers. -/
theorem repeatLoopState_eq {R : Type} [Zero R] [Add R] [Mul R] (repeats N : ℕ)
    (alpha beta : R) (m : Matrices R) (hNN : N * N < 2 ^ 31) :
    repeatLoopState repeats N alpha beta m
      = some ⟨m.matrixA, m.matrixB,
          repeatLoopVal repeats N alpha beta m.matrixA m.matrixB m.matrixC⟩ := by
  unfold repeatLoopState repeatLoopVal
  induction repeats with
  | zero => rfl
  | succ r ih => rw [forLoopM_succ, ih, Option.some_bind, sgemmRefState_eq _ _ _ _ hNN,
      forLoop_succ]

/-- Claim C13, amended. For `N * N <= 2 ^ 31 - 1` one invocation of the
reference kernel, and the repeat loop for any number of repeats, have a result
and leave the buffers A and B as they were; after the initialization every
element of A is therefore still 2.0 and every element of B still 0.5, whatever
`alpha`, `beta` and the number of repeats. -/
theorem repeatLoopState_frame (repeats N : ℕ) (alpha beta : F32) (m : Matrices F32)
    (hNN : N * N ≤ 2 ^ 31 - 1) :
    (∃ m1, sgemmRefState N alpha beta m = some m1
        ∧ m1.matrixA = m.matrixA ∧ m1.matrixB = m.matrixB)
    ∧ (∃ m2, repeatLoopState repeats N alpha beta m = some m2
        ∧ m2.matrixA = m.matrixA ∧ m2.matrixB = m.matrixB)
    ∧ (∃ m0 m3, initMatrices N m = some m0
        ∧ repeatLoopState repeats N alpha beta m0 = some m3
        ∧ ∀ p, p < N * N → (m3.matrixA p).val = 2 ∧ (m3.matrixB p).val = 1 / 2) := by
  have h : N * N < 2 ^ 31 := by omega
  refine ⟨⟨_, sgemmRefState_eq N alpha beta m h, rfl, rfl⟩,
    ⟨_, repeatLoopState_eq repeats N alpha beta m h, rfl, rfl⟩,
    ⟨_, _, initMatrices_eq N m h, repeatLoopState_eq repeats N alpha beta _ h, ?_⟩⟩
  intro p hp
  show ((initMatricesVal N m).matrixA p).val = 2 ∧ ((initMatricesVal N m).matrixB p).val = 1 / 2
  rw [init_A N m p hp, init_B N m p hp]
  exact ⟨rfl, rfl⟩

/-- Claim C13, amended, at `N = 128` after 8 repeats with `alpha = 3` and
`beta = 5`, on buffers that start out holding zeros. -/
theorem repeatLoopState_frame_witness :
    128 * 128 ≤ 2 ^ 31 - 1
    ∧ (∃ m1 : Matrices F32,
        sgemmRefState 128 (natF 24 3 : F32) (natF 24 5 : F32)
            (⟨fun _ => 0, fun _ => 0, fun _ => 0⟩ : Matrices F32) = some m1
        ∧ m1.matrixA = (⟨fun _ => 0, fun _ => 0, fun _ => 0⟩ : Matrices F32).matrixA
        ∧ m1.matrixB = (⟨fun _ => 0, fun _ => 0, fun _ => 0⟩ : Matrices F32).matrixB)
    ∧ (∃ m2 : Matrices F32,
        repeatLoopState 8 128 (natF 24 3 : F32) (natF 24 5 : F32)
            (⟨fun _ => 0, fun _ => 0, fun _ => 0⟩ : Matrices F32) = some m2
        ∧ m2.matrixA = (⟨fun _ => 0, fun _ => 0, fun _ => 0⟩ : Matrices F32).matrixA
        ∧ m2.matrixB = (⟨fun _ => 0, fun _ => 0, fun _ => 0⟩ : Matrices F32).matrixB)
    ∧ (∃ m0 m3 : Matrices F32,
        initMatrices 128 (⟨fun _ => 0, fun _ => 0, fun _ => 0⟩ : Matrices F32) = some m0
        ∧ repeatLoopState 8 128 (natF 24 3 : F32) (natF 24 5 : F32) m0 = some m3
        ∧ ∀ p, p < 128 * 128 → (m3.matrixA p).val = 2 ∧ (m3.matrixB p).val = 1 / 2) := by
  have h := repeatLoopState_frame 8 128 (natF 24 3) (natF 24 5)
    ⟨fun _ => 0, fun _ => 0, fun _ => 0⟩ (by norm_num)
  exact ⟨by norm_num, h⟩

/-- Claim C13 as stated fails at `N = 46341`: the offset of the last element
of C, `46340 * 46341 + 46340`, overflows `int`, so neither one kernel
invocation nor the repeat loop has a result that could leave A and B as they
were. -/
theorem repeatLoopState_frame_counterexample :
    sgemmRefState 46341 (natF 24 1 : F32) (natF 24 1 : F32)
        (⟨fun _ => 0, fun _ => 0, fun _ => 0⟩ : Matrices F32) = none
    ∧ repeatLoopState 1 46341 (natF 24 1 : F32) (natF 24 1 : F32)
        (⟨fun _ => 0, fun _ => 0, fun _ => 0⟩ : Matrices F32) = none := by
  have h : ∀ m : Matrices F32,
      sgemmRefState (46340 + 1) (natF 24 1 : F32) (natF 24 1 : F32) m = none :=
    fun m => sgemmRefState_overflow 46340 _ _ m (by norm_num)
  refine ⟨h _, ?_⟩
  unfold repeatLoopState
  rw [show (1 : ℕ) = 0 + 1 from rfl]
  exact forLoopM_none 0 _ _ (fun t => h t)
/-! ## The reported checksum in general -/

/-- Rounding of a positive value between `2 ^ L` and `2 ^ (L + 1)` whose
scaled value lies less than one half above the integer `z`. -/
theorem roundTo_down (p : ℕ) (x : ℚ) (L z : ℤ) (hx : 0 < x) (h1 : (2 : ℚ) ^ L ≤ x)
    (h2 : x < (2 : ℚ) ^ (L + 1)) (hz1 : (z : ℚ) ≤ x / (2 : ℚ) ^ (L - ((p : ℤ) - 1)))
    (hz2 : x / (2 : ℚ) ^ (L - ((p : ℤ) - 1)) - (z : ℚ) < 1 / 2) :
    roundTo p x = (z : ℚ) * (2 : ℚ) ^ (L - ((p : ℤ) - 1)) := by
  have hpos : (0 : ℚ) < |x| := abs_pos.mpr hx.ne'
  have hlog : Int.log 2 |x| = L := by
    apply le_antisymm
    · have : Int.log 2 |x| < L + 1 := by
        rw [← Int.lt_zpow_iff_log_lt (by norm_num) hpos, abs_of_pos hx]
        exact_mod_cast h2
      omega
    · rw [← Int.zpow_le_iff_le_log (by norm_num) hpos, abs_of_pos hx]
      exact_mod_cast h1
  simp only [roundTo, if_neg hx.ne', hlog]
  have hfl : ⌊x / (2 : ℚ) ^ (L - ((p : ℤ) - 1))⌋ = z := by
    rw [Int.floor_eq_iff]
    constructor
    · exact hz1
    · linarith
  simp only [roundHalfEven, hfl, hz2, if_true]

/-- The run of an accepted command line with `alpha = beta = 1.0` whose three
allocations succeed. -/
theorem main_accepted (N k : ℕ) (hN : 128 ≤ N) (hk : 4 ≤ k) (A B C : ℕ → F32) :
    (main 5 (argvOf [Arg.int N, Arg.int k, Arg.dec 1, Arg.dec 1])
        (some A) (some B) (some C)).events
      = [Event.print .stdout (.sizeInput N), Event.print .stdout (.repeatTimes k),
          Event.print .stdout (.alphaIs ⟨1⟩), Event.print .stdout (.betaIs ⟨1⟩),
          Event.print .stdout .allocating,
          Event.malloc ((4 * N * N) % 2 ^ 64), Event.malloc ((4 * N * N) % 2 ^ 64),
          Event.malloc ((4 * N * N) % 2 ^ 64),
          Event.print .stdout .allocationComplete]
        ++ (benchmark ⟨(N : ℤ), (k : ℤ), ⟨1⟩, ⟨1⟩⟩ ⟨A, B, C⟩).events := by
  have h : (Fl.cast (Fl.ofRat 1 : F64) : F32) = ⟨1⟩ := by
    apply Fl.ext_val
    rw [Fl.cast_val, Fl.ofRat_val, roundTo_one 53 (by norm_num), roundTo_one 24 (by norm_num)]
  have hk2 : ¬ ((k : ℤ) < 4) := by omega
  have hN2 : ¬ ((N : ℤ) < 128) := by omega
  have hp : parseArgs 5 (argvOf [Arg.int N, Arg.int k, Arg.dec 1, Arg.dec 1])
      = ([Event.print .stdout (.sizeInput N), Event.print .stdout (.repeatTimes k)],
          some ⟨(N : ℤ), (k : ℤ), ⟨1⟩, ⟨1⟩⟩) := by
    simp [parseArgs, argvOf, Arg.int, Arg.dec, h, hk2]
  simp [main, hp, runConfig_alloc ⟨(N : ℤ), (k : ℤ), ⟨1⟩, ⟨1⟩⟩ A B C hN2]

/-- The "Final Sum" of a run with `alpha = beta = 1` whose sums stay within
`2 ^ 24`: the `float` nearest to `(k * N + 1) / k`. -/
theorem reportVal_finalSum_val (N k : ℕ) (hN : 0 < N) (hk : 0 < k)
    (hb : N * N * (k * N + 1) ≤ 2 ^ 24) (m : Matrices F32) :
    (reportVal ⟨(N : ℤ), (k : ℤ), ⟨1⟩, ⟨1⟩⟩ m).finalSum
      = ⟨roundTo 24 (((k * N + 1 : ℕ) : ℚ) / (k : ℚ))⟩ := by
  have hNN : 0 < N * N := Nat.mul_pos hN hN
  have h1 : N * N * k ≤ N * N * (k * N + 1) := by
    apply Nat.mul_le_mul_left
    have : k ≤ k * N := Nat.le_mul_of_pos_right _ hN
    omega
  rw [reportVal_finalSum N k hN hb m, natF_mul (by norm_num) _ _ (by omega)]
  apply Fl.ext_val
  rw [Fl.div_val]
  simp only [natF]
  congr 1
  have hN0 : (N : ℚ) ≠ 0 := by exact_mod_cast hN.ne'
  have hk0 : (k : ℚ) ≠ 0 := by exact_mod_cast hk.ne'
  push_cast
  field_simp
  ring

/-- Claim C15, amended. For an accepted size and repeat count with
`N * N * (repeats * N + 1) <= 2 ^ 24` and `alpha = beta = 1.0`, the run with the
reference kernel prints as "Final Sum" the `float` nearest to
`(repeats * N + 1) / repeats`; for `repeats = 4` that is `N + 1/4` exactly. -/
theorem finalSum_reported (N k : ℕ) (hN : 128 ≤ N) (hk : 4 ≤ k)
    (hb : N * N * (k * N + 1) ≤ 2 ^ 24) (A B C : ℕ → F32) :
    Event.print .stdout (.finalSum ⟨roundTo 24 (((k * N + 1 : ℕ) : ℚ) / (k : ℚ))⟩)
      ∈ (main 5 (argvOf [Arg.int N, Arg.int k, Arg.dec 1, Arg.dec 1])
          (some A) (some B) (some C)).events
    ∧ (k = 4 → roundTo 24 (((k * N + 1 : ℕ) : ℚ) / (k : ℚ)) = (N : ℚ) + 1 / 4) := by
  constructor
  · have hNN : N * N < 2 ^ 31 := by
      have : N * N * 1 ≤ N * N * (k * N + 1) := Nat.mul_le_mul_left _ (by omega)
      omega
    have hbm := benchmark_eq ⟨(N : ℤ), (k : ℤ), ⟨1⟩, ⟨1⟩⟩ ⟨A, B, C⟩ (by simpa using hNN)
    rw [main_accepted N k hN hk A B C, hbm]
    simp [reportVal_finalSum_val N k (by omega) (by omega) hb]
  · intro h4
    subst h4
    have h1 : 4 * N + 1 ≤ 2 ^ 24 := by
      have : 1 * (4 * N + 1) ≤ N * N * (4 * N + 1) :=
        Nat.mul_le_mul_right _ (Nat.mul_pos (by omega) (by omega))
      omega
    have hd := roundTo_natCast_div 24 (by norm_num) (4 * N + 1) 2 h1
    have e : ((4 * N + 1 : ℕ) : ℚ) / ((4 : ℕ) : ℚ) = ((4 * N + 1 : ℕ) : ℚ) / 2 ^ 2 := by
      norm_num
    rw [e, hd]
    push_cast
    ring

/-- Claim C15, amended, at `N = 128`, `repeats = 4`, on buffers that start
out holding zeros. -/
theorem finalSum_reported_witness :
    128 ≤ 128 ∧ 4 ≤ 4 ∧ 128 * 128 * (4 * 128 + 1) ≤ 2 ^ 24
    ∧ Event.print .stdout
        (.finalSum ⟨roundTo 24 (((4 * 128 + 1 : ℕ) : ℚ) / ((4 : ℕ) : ℚ))⟩)
      ∈ (main 5 (argvOf [Arg.int (128 : ℕ), Arg.int (4 : ℕ), Arg.dec 1, Arg.dec 1])
          (some (fun _ => 0)) (some (fun _ => 0)) (some (fun _ => 0))).events
    ∧ ((4 : ℕ) = 4 →
        roundTo 24 (((4 * 128 + 1 : ℕ) : ℚ) / ((4 : ℕ) : ℚ)) = ((128 : ℕ) : ℚ) + 1 / 4) :=
  ⟨by decide, by decide, by norm_num,
    finalSum_reported 128 4 (by decide) (by decide) (by norm_num)
      (fun _ => 0) (fun _ => 0) (fun _ => 0)⟩

/-- Claim C15 as stated fails at `N = 128`, `repeats = 5`: the run prints
`8401715 / 65536 = 128.19999694824219`, the `float` nearest to
`641 / 5 = 128.2`, which is not a `float`. -/
theorem finalSum_reported_counterexample :
    Event.print .stdout (.finalSum ⟨8401715 / 65536⟩)
      ∈ (main 5 (argvOf [Arg.int 128, Arg.int 5, Arg.dec 1, Arg.dec 1])
          (some (fun _ => 0)) (some (fun _ => 0)) (some (fun _ => 0))).events
    ∧ (8401715 / 65536 : ℚ) ≠ (5 * 128 + 1) / 5 := by
  constructor
  · have hm := main_accepted 128 5 (by norm_num) (by norm_num)
      (fun _ => 0) (fun _ => 0) (fun _ => 0)
    have hr := reportVal_finalSum_val 128 5 (by norm_num) (by norm_num) (by norm_num)
      ⟨fun _ => 0, fun _ => 0, fun _ => 0⟩
    have hd := roundTo_down 24 (641 / 5) 7 8401715 (by norm_num) (by norm_num) (by norm_num)
      (by norm_num) (by norm_num)
    have e : (((5 * 128 + 1 : ℕ) : ℚ) / ((5 : ℕ) : ℚ)) = 641 / 5 := by norm_num
    have e2 : ((8401715 : ℤ) : ℚ) * (2 : ℚ) ^ ((7 : ℤ) - (((24 : ℕ) : ℤ) - 1))
        = 8401715 / 65536 := by
      norm_num
    rw [e, hd, e2] at hr
    have hbm := benchmark_eq ⟨((128 : ℕ) : ℤ), ((5 : ℕ) : ℤ), ⟨1⟩, ⟨1⟩⟩
      ⟨fun _ => 0, fun _ => 0, fun _ => 0⟩ (by simp)
    simp only [Nat.cast_ofNat] at hm hr hbm
    rw [hm, hbm]
    simp [hr]
  · norm_num
/-! ## The parallel region of the kernel -/

theorem incInt_eq (n : ℕ) (h : n + 1 < 2 ^ 31) : incInt n = some (n + 1) := by
  unfold incInt intResult INT_MIN INT_MAX
  have h1 : (-(2 ^ 31) : ℤ) ≤ (n : ℤ) + 1 ∧ (n : ℤ) + 1 ≤ 2 ^ 31 - 1 := by
    constructor <;> omega
  rw [if_pos h1]
  simp only [Option.map_some']
  congr 1

theorem runWorker_add {R : Type} [Zero R] [Add R] [Mul R] (N : ℕ) (alpha beta : R)
    (A B : ℕ → R) (a b : ℕ) (x : Worker R × Shared R) :
    runWorker N alpha beta A B (a + b) x
      = (runWorker N alpha beta A B a x).bind (runWorker N alpha beta A B b) := by
  induction a generalizing x with
  | zero => simp [runWorker]
  | succ a ih =>
    rw [show a + 1 + b = (a + b) + 1 by omega]
    simp only [runWorker]
    cases stepWorker N alpha beta A B x.1 x.2 with
    | none => rfl
    | some y => simp only [Option.some_bind]; exact ih y

theorem runWorker_zero {R : Type} [Zero R] [Add R] [Mul R] (N : ℕ) (alpha beta : R)
    (A B : ℕ → R) (x : Worker R × Shared R) : runWorker N alpha beta A B 0 x = some x := rfl

/-- A first step with a result, followed by `n` more. -/
theorem runWorker_step {R : Type} [Zero R] [Add R] [Mul R] (N : ℕ) (alpha beta : R)
    (A B : ℕ → R) (n : ℕ) (w : Worker R) (s : Shared R) (y : Worker R × Shared R)
    (h : stepWorker N alpha beta A B w s = some y) :
    runWorker N alpha beta A B (n + 1) (w, s) = runWorker N alpha beta A B n y := by
  simp only [runWorker, h, Option.some_bind]

theorem step_testI {R : Type} [Zero R] [Add R] [Mul R] (N : ℕ) (alpha beta : R)
    (A B C : ℕ → R) (i l j k : ℕ) (sum : R) :
    stepWorker N alpha beta A B ⟨i, l, sum, .testI⟩ ⟨j, k, C⟩
      = some (⟨i, l, sum, if i < l then .initJ else .done⟩, ⟨j, k, C⟩) := rfl

theorem step_initJ {R : Type} [Zero R] [Add R] [Mul R] (N : ℕ) (alpha beta : R)
    (A B C : ℕ → R) (i l j k : ℕ) (sum : R) :
    stepWorker N alpha beta A B ⟨i, l, sum, .initJ⟩ ⟨j, k, C⟩
      = some (⟨i, l, sum, .testJ⟩, ⟨0, k, C⟩) := rfl

theorem step_testJ {R : Type} [Zero R] [Add R] [Mul R] (N : ℕ) (alpha beta : R)
    (A B C : ℕ → R) (i l j k : ℕ) (sum : R) :
    stepWorker N alpha beta A B ⟨i, l, sum, .testJ⟩ ⟨j, k, C⟩
      = some (⟨i, l, sum, if j < N then .initSum else .incI⟩, ⟨j, k, C⟩) := rfl

theorem step_initSum {R : Type} [Zero R] [Add R] [Mul R] (N : ℕ) (alpha beta : R)
    (A B C : ℕ → R) (i l j k : ℕ) (sum : R) :
    stepWorker N alpha beta A B ⟨i, l, sum, .initSum⟩ ⟨j, k, C⟩
      = some (⟨i, l, 0, .initK⟩, ⟨j, k, C⟩) := rfl

theorem step_initK {R : Type} [Zero R] [Add R] [Mul R] (N : ℕ) (alpha beta : R)
    (A B C : ℕ → R) (i l j k : ℕ) (sum : R) :
    stepWorker N alpha beta A B ⟨i, l, sum, .initK⟩ ⟨j, k, C⟩
      = some (⟨i, l, sum, .testK⟩, ⟨j, 0, C⟩) := rfl

theorem step_testK {R : Type} [Zero R] [Add R] [Mul R] (N : ℕ) (alpha beta : R)
    (A B C : ℕ → R) (i l j k : ℕ) (sum : R) :
    stepWorker N alpha beta A B ⟨i, l, sum, .testK⟩ ⟨j, k, C⟩
      = some (⟨i, l, sum, if k < N then .addTerm else .storeC⟩, ⟨j, k, C⟩) := rfl

theorem step_addTerm {R : Type} [Zero R] [Add R] [Mul R] (N : ℕ) (alpha beta : R)
    (A B C : ℕ → R) (hNN : N * N < 2 ^ 31) (i l j k : ℕ) (hi : i < N) (hj : j < N)
    (hk : k < N) (sum : R) :
    stepWorker N alpha beta A B ⟨i, l, sum, .addTerm⟩ ⟨j, k, C⟩
      = some (⟨i, l, sum + A (i * N + k) * B (k * N + j), .incK⟩, ⟨j, k, C⟩) := by
  simp only [stepWorker, loadAt_eq N i k A hNN hi hk, loadAt_eq N k j B hNN hk hj,
    Option.some_bind, Option.map_some']

theorem step_incK {R : Type} [Zero R] [Add R] [Mul R] (N : ℕ) (alpha beta : R)
    (A B C : ℕ → R) (i l j k : ℕ) (hk : k + 1 < 2 ^ 31) (sum : R) :
    stepWorker N alpha beta A B ⟨i, l, sum, .incK⟩ ⟨j, k, C⟩
      = some (⟨i, l, sum, .testK⟩, ⟨j, k + 1, C⟩) := by
  simp only [stepWorker, incInt_eq k hk, Option.map_some']

theorem step_storeC {R : Type} [Zero R] [Add R] [Mul R] (N : ℕ) (alpha beta : R)
    (A B C : ℕ → R) (hNN : N * N < 2 ^ 31) (i l j k : ℕ) (hi : i < N) (hj : j < N)
    (sum : R) :
    stepWorker N alpha beta A B ⟨i, l, sum, .storeC⟩ ⟨j, k, C⟩
      = some (⟨i, l, sum, .incJ⟩,
          ⟨j, k, Function.update C (i * N + j) (alpha * sum + beta * C (i * N + j))⟩) := by
  simp only [stepWorker, loadAt_eq N i j C hNN hi hj, storeAt_eq N i j C _ hNN hi hj,
    Option.some_bind, Option.map_some']

theorem step_incJ {R : Type} [Zero R] [Add R] [Mul R] (N : ℕ) (alpha beta : R)
    (A B C : ℕ → R) (i l j k : ℕ) (hj : j + 1 < 2 ^ 31) (sum : R) :
    stepWorker N alpha beta A B ⟨i, l, sum, .incJ⟩ ⟨j, k, C⟩
      = some (⟨i, l, sum, .testJ⟩, ⟨j + 1, k, C⟩) := by
  simp only [stepWorker, incInt_eq j hj, Option.map_some']

theorem step_incI {R : Type} [Zero R] [Add R] [Mul R] (N : ℕ) (alpha beta : R)
    (A B C : ℕ → R) (i l j k : ℕ) (hi : i + 1 < 2 ^ 31) (sum : R) :
    stepWorker N alpha beta A B ⟨i, l, sum, .incI⟩ ⟨j, k, C⟩
      = some (⟨i + 1, l, sum, .testI⟩, ⟨j, k, C⟩) := by
  simp only [stepWorker, incInt_eq i hi, Option.map_some']

/-- The loop over `k` of a worker that is not disturbed: after `k` rounds the
worker is back at the test, `sum` holds the first `k` terms. -/
theorem runWorker_terms {R : Type} [Zero R] [Add R] [Mul R] (N : ℕ) (alpha beta : R)
    (A B C : ℕ → R) (hNN : N * N < 2 ^ 31) (i l j : ℕ) (hi : i < N) (hj : j < N) (k : ℕ)
    (hk : k ≤ N) :
    runWorker N alpha beta A B (3 * k) (⟨i, l, 0, .testK⟩, ⟨j, 0, C⟩)
      = some (⟨i, l, forLoop k (fun k sum => sum + A (i * N + k) * B (k * N + j)) 0, .testK⟩,
          ⟨j, k, C⟩) := by
  induction k with
  | zero => simp only [Nat.mul_zero, runWorker, forLoop_zero]
  | succ k ih =>
    have hk1 : k < N := by omega
    have hN : N ≤ N * N := Nat.le_mul_of_pos_left _ (by omega)
    have hk2 : k + 1 < 2 ^ 31 := by omega
    have e : 3 * (k + 1) = 3 * k + (0 + 1 + 1 + 1) := by ring
    rw [e, runWorker_add, ih (by omega), Option.some_bind,
      runWorker_step N alpha beta A B _ _ _ _ (step_testK N alpha beta A B C i l j k _),
      if_pos hk1,
      runWorker_step N alpha beta A B _ _ _ _
        (step_addTerm N alpha beta A B C hNN i l j k hi hj hk1 _),
      runWorker_step N alpha beta A B _ _ _ _ (step_incK N alpha beta A B C i l j k hk2 _),
      forLoop_succ]
    rfl

/-- One round of the loop over `j` of a worker that is not disturbed. -/
theorem runWorker_cell {R : Type} [Zero R] [Add R] [Mul R] (N : ℕ) (alpha beta : R)
    (A B C : ℕ → R) (hNN : N * N < 2 ^ 31) (i l j : ℕ) (hi : i < N) (hj : j < N) (sum : R)
    (k : ℕ) :
    runWorker N alpha beta A B (3 * N + 6) (⟨i, l, sum, .testJ⟩, ⟨j, k, C⟩)
      = some (⟨i, l, innerSumVal N A B i j, .testJ⟩,
          ⟨j + 1, N, Function.update C (i * N + j)
            (alpha * innerSumVal N A B i j + beta * C (i * N + j))⟩) := by
  have hN : N ≤ N * N := Nat.le_mul_of_pos_left _ (by omega)
  have hj2 : j + 1 < 2 ^ 31 := by omega
  have e : 3 * N + 6 = (0 + 1 + 1 + 1) + (3 * N + (0 + 1 + 1 + 1)) := by ring
  rw [e, runWorker_add,
    runWorker_step N alpha beta A B _ _ _ _ (step_testJ N alpha beta A B C i l j k _),
    if_pos hj,
    runWorker_step N alpha beta A B _ _ _ _ (step_initSum N alpha beta A B C i l j k _),
    runWorker_step N alpha beta A B _ _ _ _ (step_initK N alpha beta A B C i l j k _)]
  rw [runWorker_zero, Option.some_bind, runWorker_add, runWorker_terms N alpha beta A B C hNN i l j hi hj N (le_refl N),
    Option.some_bind,
    runWorker_step N alpha beta A B _ _ _ _ (step_testK N alpha beta A B C i l j N _),
    if_neg (lt_irrefl N),
    runWorker_step N alpha beta A B _ _ _ _ (step_storeC N alpha beta A B C hNN i l j N hi hj _),
    runWorker_step N alpha beta A B _ _ _ _ (step_incJ N alpha beta A B _ i l j N hj2 _)]
  rfl

/-- The loop over `j` of a worker that is not disturbed: after `j` rounds the
worker is back at the test and the first `j` cells of its row are stored. -/
theorem runWorker_cells {R : Type} [Zero R] [Add R] [Mul R] (N : ℕ) (alpha beta : R)
    (A B : ℕ → R) (hNN : N * N < 2 ^ 31) (i l : ℕ) (hi : i < N) (j : ℕ) (hj : j ≤ N)
    (C : ℕ → R) (sum : R) (k : ℕ) :
    ∃ sum1 k1, runWorker N alpha beta A B (j * (3 * N + 6)) (⟨i, l, sum, .testJ⟩, ⟨0, k, C⟩)
      = some (⟨i, l, sum1, .testJ⟩,
          ⟨j, k1, forLoop j (fun j C => Function.update C (i * N + j)
            (alpha * innerSumVal N A B i j + beta * C (i * N + j))) C⟩) := by
  induction j with
  | zero => exact ⟨sum, k, by rw [Nat.zero_mul, runWorker_zero, forLoop_zero]⟩
  | succ j ih =>
    obtain ⟨sum1, k1, h⟩ := ih (by omega)
    refine ⟨innerSumVal N A B i j, N, ?_⟩
    rw [show (j + 1) * (3 * N + 6) = j * (3 * N + 6) + (3 * N + 6) by ring, runWorker_add, h,
      Option.some_bind, runWorker_cell N alpha beta A B _ hNN i l j hi (by omega) sum1 k1,
      forLoop_succ]

/-- One row of a worker that is not disturbed: `rowSteps N` steps take it
from the test of the loop over `i` back to that test, one row further, and
leave `j = N`. -/
theorem runWorker_row {R : Type} [Zero R] [Add R] [Mul R] (N : ℕ) (alpha beta : R)
    (A B : ℕ → R) (hNN : N * N < 2 ^ 31) (i l : ℕ) (hi : i < N) (hil : i < l)
    (C : ℕ → R) (sum : R) (j k : ℕ) :
    ∃ sum1 k1, runWorker N alpha beta A B (rowSteps N) (⟨i, l, sum, .testI⟩, ⟨j, k, C⟩)
      = some (⟨i + 1, l, sum1, .testI⟩, ⟨N, k1, rowVal N alpha beta A B i C⟩) := by
  obtain ⟨sum1, k1, h⟩ := runWorker_cells N alpha beta A B hNN i l hi N (le_refl N) C sum k
  have hN : N ≤ N * N := Nat.le_mul_of_pos_left _ (by omega)
  have hi2 : i + 1 < 2 ^ 31 := by omega
  refine ⟨sum1, k1, ?_⟩
  have e : rowSteps N = (0 + 1 + 1) + (N * (3 * N + 6) + (0 + 1 + 1)) := by
    unfold rowSteps
    ring
  rw [e, runWorker_add,
    runWorker_step N alpha beta A B _ _ _ _ (step_testI N alpha beta A B C i l j k _),
    if_pos hil,
    runWorker_step N alpha beta A B _ _ _ _ (step_initJ N alpha beta A B C i l j k _),
    runWorker_zero, Option.some_bind, runWorker_add, h, Option.some_bind,
    runWorker_step N alpha beta A B _ _ _ _ (step_testJ N alpha beta A B _ i l N k1 _),
    if_neg (lt_irrefl N),
    runWorker_step N alpha beta A B _ _ _ _ (step_incI N alpha beta A B _ i l N k1 hi2 _)]
  rfl

/-- The first `r` rows of the chunk of a worker that is not disturbed. -/
theorem runWorker_rows {R : Type} [Zero R] [Add R] [Mul R] (N : ℕ) (alpha beta : R)
    (A B : ℕ → R) (hNN : N * N < 2 ^ 31) (first l : ℕ) (hl : l ≤ N) (r : ℕ)
    (hr : first + r ≤ l) (C : ℕ → R) (sum : R) (j k : ℕ) :
    ∃ sum1 j1 k1,
      runWorker N alpha beta A B (r * rowSteps N) (⟨first, l, sum, .testI⟩, ⟨j, k, C⟩)
        = some (⟨first + r, l, sum1, .testI⟩, ⟨j1, k1, chunkVal N alpha beta A B first r C⟩)
      ∧ (0 < r → j1 = N) := by
  induction r with
  | zero =>
    refine ⟨sum, j, k, ?_, fun h => absurd h (lt_irrefl 0)⟩
    rw [Nat.zero_mul, runWorker_zero]
    rfl
  | succ r ih =>
    obtain ⟨sum1, j1, k1, h, _⟩ := ih (by omega)
    obtain ⟨sum2, k2, h2⟩ := runWorker_row N alpha beta A B hNN (first + r) l (by omega)
      (by omega) (chunkVal N alpha beta A B first r C) sum1 j1 k1
    refine ⟨sum2, N, k2, ?_, fun _ => rfl⟩
    rw [show (r + 1) * rowSteps N = r * rowSteps N + rowSteps N by ring, runWorker_add, h,
      Option.some_bind, h2]
    rfl

/-- The whole chunk of a worker that is not disturbed. -/
theorem runWorker_chunk {R : Type} [Zero R] [Add R] [Mul R] (N : ℕ) (alpha beta : R)
    (A B : ℕ → R) (hNN : N * N < 2 ^ 31) (first l : ℕ) (hl : l ≤ N) (hfl : first ≤ l)
    (C : ℕ → R) (sum : R) (j k : ℕ) :
    ∃ sum1 j1 k1,
      runWorker N alpha beta A B ((l - first) * rowSteps N + 1)
          (⟨first, l, sum, .testI⟩, ⟨j, k, C⟩)
        = some (⟨l, l, sum1, .done⟩,
            ⟨j1, k1, chunkVal N alpha beta A B first (l - first) C⟩)
      ∧ (first < l → j1 = N) := by
  obtain ⟨sum1, j1, k1, h, hj⟩ := runWorker_rows N alpha beta A B hNN first l hl (l - first)
    (by omega) C sum j k
  refine ⟨sum1, j1, k1, ?_, fun hlt => hj (by omega)⟩
  have e : first + (l - first) = l := by omega
  rw [e] at h
  rw [runWorker_add, h, Option.some_bind, show (1 : ℕ) = 0 + 1 from rfl,
    runWorker_step N alpha beta A B _ _ _ _ (step_testI N alpha beta A B _ l l j1 k1 _),
    if_neg (lt_irrefl l)]
  rfl

/-! ### Schedules -/

theorem runRegion_append {R : Type} [Zero R] [Add R] [Mul R] (N : ℕ) (alpha beta : R)
    (A B : ℕ → R) (a b : List ℕ) (g : Region R) :
    runRegion N alpha beta A B (a ++ b) g
      = (runRegion N alpha beta A B a g).bind (runRegion N alpha beta A B b) := by
  induction a generalizing g with
  | nil => rfl
  | cons t rest ih =>
    simp only [List.cons_append, runRegion]
    cases stepRegion N alpha beta A B t g with
    | none => rfl
    | some g1 => simp only [Option.some_bind]; exact ih g1

/-- Worker 0 of a team of two taking `n` steps in a row. -/
theorem runRegion_first {R : Type} [Zero R] [Add R] [Mul R] (N : ℕ) (alpha beta : R)
    (A B : ℕ → R) (n : ℕ) (w0 w1 v : Worker R) (s t : Shared R)
    (h : runWorker N alpha beta A B n (w0, s) = some (v, t)) :
    runRegion N alpha beta A B (List.replicate n 0) ⟨[w0, w1], s⟩ = some ⟨[v, w1], t⟩ := by
  induction n generalizing w0 s with
  | zero =>
    rw [runWorker_zero] at h
    cases h
    rfl
  | succ n ih =>
    simp only [runWorker] at h
    rcases hs : stepWorker N alpha beta A B w0 s with _ | y
    · rw [hs] at h
      cases h
    · rw [hs, Option.some_bind] at h
      have hr : stepRegion N alpha beta A B 0 ⟨[w0, w1], s⟩ = some ⟨[y.1, w1], y.2⟩ := by
        simp [stepRegion, hs]
      rw [List.replicate_succ]
      simp only [runRegion, hr, Option.some_bind]
      exact ih y.1 y.2 h

/-- Worker 1 of a team of two taking `n` steps in a row. -/
theorem runRegion_second {R : Type} [Zero R] [Add R] [Mul R] (N : ℕ) (alpha beta : R)
    (A B : ℕ → R) (n : ℕ) (w0 w1 v : Worker R) (s t : Shared R)
    (h : runWorker N alpha beta A B n (w1, s) = some (v, t)) :
    runRegion N alpha beta A B (List.replicate n 1) ⟨[w0, w1], s⟩ = some ⟨[w0, v], t⟩ := by
  induction n generalizing w1 s with
  | zero =>
    rw [runWorker_zero] at h
    cases h
    rfl
  | succ n ih =>
    simp only [runWorker] at h
    rcases hs : stepWorker N alpha beta A B w1 s with _ | y
    · rw [hs] at h
      cases h
    · rw [hs, Option.some_bind] at h
      have hr : stepRegion N alpha beta A B 1 ⟨[w0, w1], s⟩ = some ⟨[w0, y.1], y.2⟩ := by
        simp [stepRegion, hs]
      rw [List.replicate_succ]
      simp only [runRegion, hr, Option.some_bind]
      exact ih y.1 y.2 h

/-! ### What the rows of a chunk leave in C -/

/-- A store loop over the offsets `b, ..., b + n - 1`. -/
theorem forLoop_update_from {R : Type} (n b : ℕ) (g : ℕ → R → R) (C : ℕ → R) (q : ℕ) :
    forLoop n (fun j D => Function.update D (b + j) (g j (D (b + j)))) C q
      = if b ≤ q ∧ q < b + n then g (q - b) (C q) else C q := by
  induction n with
  | zero =>
    have : ¬ (b ≤ q ∧ q < b) := by omega
    simp [this]
  | succ n ih =>
    rw [forLoop_succ]
    by_cases hq : q = b + n
    · subst hq
      rw [Function.update_same, ih]
      have h1 : ¬ (b ≤ b + n ∧ b + n < b + n) := by omega
      have h2 : b ≤ b + n ∧ b + n < b + (n + 1) := by omega
      simp [h1, h2]
    · rw [Function.update_noteq hq, ih]
      by_cases h : b ≤ q ∧ q < b + n
      · have h2 : b ≤ q ∧ q < b + (n + 1) := by omega
        simp [h, h2]
      · have h2 : ¬ (b ≤ q ∧ q < b + (n + 1)) := by omega
        simp [h, h2]


/-- The row `b` does not hold an offset of another row `a`. -/
theorem row_disjoint {N a b j : ℕ} (hj : j < N) (hab : a ≠ b) :
    ¬ (b * N ≤ a * N + j ∧ a * N + j < b * N + N) := by
  intro hq
  rcases Nat.lt_or_gt_of_ne hab with h | h
  · have h1 := Nat.mul_le_mul_right N (show a + 1 ≤ b from h)
    rw [Nat.add_mul, Nat.one_mul] at h1
    omega
  · have h1 := Nat.mul_le_mul_right N (show b + 1 ≤ a from h)
    rw [Nat.add_mul, Nat.one_mul] at h1
    omega

/-- One row, offset by offset. -/
theorem rowVal_apply {R : Type} [Zero R] [Add R] [Mul R] (N : ℕ) (alpha beta : R)
    (A B : ℕ → R) (i : ℕ) (C : ℕ → R) (q : ℕ) :
    rowVal N alpha beta A B i C q
      = if i * N ≤ q ∧ q < i * N + N
        then alpha * innerSumVal N A B i (q - i * N) + beta * C q else C q := by
  unfold rowVal
  exact forLoop_update_from N (i * N) (fun j c => alpha * innerSumVal N A B i j + beta * c) C q

/-- An offset in none of the rows of a chunk keeps its value. -/
theorem chunkVal_outside {R : Type} [Zero R] [Add R] [Mul R] (N : ℕ) (alpha beta : R)
    (A B : ℕ → R) (first r : ℕ) (C : ℕ → R) (q : ℕ)
    (h : ∀ t, t < r → ¬ ((first + t) * N ≤ q ∧ q < (first + t) * N + N)) :
    chunkVal N alpha beta A B first r C q = C q := by
  induction r with
  | zero => rfl
  | succ r ih =>
    unfold chunkVal at ih ⊢
    rw [forLoop_succ, rowVal_apply, if_neg (h r (by omega)), ih (fun t ht => h t (by omega))]

/-- An offset in one of the rows of a chunk gets its new value from its old
one. -/
theorem chunkVal_inside {R : Type} [Zero R] [Add R] [Mul R] (N : ℕ) (alpha beta : R)
    (A B : ℕ → R) (first r : ℕ) (C : ℕ → R) (i j : ℕ) (hj : j < N) (h1 : first ≤ i)
    (h2 : i < first + r) :
    chunkVal N alpha beta A B first r C (i * N + j)
      = alpha * innerSumVal N A B i j + beta * C (i * N + j) := by
  induction r with
  | zero => omega
  | succ r ih =>
    have hstep : chunkVal N alpha beta A B first (r + 1) C
        = rowVal N alpha beta A B (first + r) (chunkVal N alpha beta A B first r C) := by
      unfold chunkVal
      rw [forLoop_succ]
    rw [hstep, rowVal_apply]
    by_cases hi : i = first + r
    · subst hi
      have hin : (first + r) * N ≤ (first + r) * N + j
          ∧ (first + r) * N + j < (first + r) * N + N := by omega
      rw [if_pos hin, Nat.add_sub_cancel_left,
        chunkVal_outside N alpha beta A B first r C _
          (fun t ht => row_disjoint hj (by omega))]
    · rw [if_neg (row_disjoint hj hi), ih (by omega)]

/-! ### A schedule under which a row is lost -/

/-- Two workers with the chunks `[0, h)` and `[h, N)` under `raceSchedule`:
worker 1 has executed `j = 0` of row `h` when worker 0 runs its chunk, which
leaves `j = N`; worker 1 then finds `j < N` false and leaves row `h` at once.
Both workers finish, row `h` of C is as it was before, every other row is
computed. -/
theorem raceSchedule_run {R : Type} [Zero R] [Add R] [Mul R] (N h : ℕ) (alpha beta : R)
    (A B C : ℕ → R) (hNN : N * N < 2 ^ 31) (h0 : 0 < h) (hh : h < N) (j0 k0 : ℕ) :
    ∃ st, runRegion N alpha beta A B (raceSchedule N h)
          (startRegion [(0, h), (h, N)] ⟨j0, k0, C⟩) = some st
      ∧ st.workers.map Worker.pc = [Pc.done, Pc.done]
      ∧ (∀ j, j < N → st.shared.matrixC (h * N + j) = C (h * N + j))
      ∧ (∀ i j, i < N → j < N → i ≠ h →
          st.shared.matrixC (i * N + j)
            = alpha * innerSumVal N A B i j + beta * C (i * N + j)) := by
  have hN : N ≤ N * N := Nat.le_mul_of_pos_left _ (by omega)
  have hh2 : h + 1 < 2 ^ 31 := by omega
  -- worker 1 enters row h
  have s1 : runWorker N alpha beta A B (0 + 1 + 1) (⟨h, N, 0, .testI⟩, ⟨j0, k0, C⟩)
      = some (⟨h, N, 0, .testJ⟩, ⟨0, k0, C⟩) := by
    rw [runWorker_step N alpha beta A B _ _ _ _ (step_testI N alpha beta A B C h N j0 k0 _),
      if_pos hh,
      runWorker_step N alpha beta A B _ _ _ _ (step_initJ N alpha beta A B C h N j0 k0 _)]
    rfl
  -- worker 0 runs its chunk
  obtain ⟨sum1, j1, k1, s2, hj1⟩ := runWorker_chunk N alpha beta A B hNN 0 h (by omega)
    (by omega) C 0 0 k0
  rw [Nat.sub_zero, hj1 h0] at s2
  -- worker 1 leaves row h and runs the rest of its chunk
  obtain ⟨sum2, j2, k2, s3, _⟩ := runWorker_chunk N alpha beta A B hNN (h + 1) N (le_refl N)
    (by omega) (chunkVal N alpha beta A B 0 h C) 0 N k1
  have s4 : runWorker N alpha beta A B ((N - h - 1) * rowSteps N + 3)
      (⟨h, N, 0, .testJ⟩, ⟨N, k1, chunkVal N alpha beta A B 0 h C⟩)
      = some (⟨N, N, sum2, .done⟩,
          ⟨j2, k2, chunkVal N alpha beta A B (h + 1) (N - (h + 1))
            (chunkVal N alpha beta A B 0 h C)⟩) := by
    have e : (N - h - 1) * rowSteps N + 3 = (0 + 1 + 1) + ((N - (h + 1)) * rowSteps N + 1) := by
      rw [Nat.sub_sub]
      omega
    rw [e, runWorker_add,
      runWorker_step N alpha beta A B _ _ _ _ (step_testJ N alpha beta A B _ h N N k1 _),
      if_neg (lt_irrefl N),
      runWorker_step N alpha beta A B _ _ _ _ (step_incI N alpha beta A B _ h N N k1 hh2 _),
      runWorker_zero, Option.some_bind, s3]
  refine ⟨⟨[⟨h, h, sum1, .done⟩, ⟨N, N, sum2, .done⟩],
    ⟨j2, k2, chunkVal N alpha beta A B (h + 1) (N - (h + 1))
      (chunkVal N alpha beta A B 0 h C)⟩⟩, ?_, ?_, ?_, ?_⟩
  · unfold raceSchedule
    rw [runRegion_append, runRegion_append]
    have r1 := runRegion_second N alpha beta A B (0 + 1 + 1) ⟨0, h, 0, .testI⟩ _ _ _ _ s1
    have r2 := runRegion_first N alpha beta A B _ _ ⟨h, N, 0, .testJ⟩ _ _ _ s2
    have r3 := runRegion_second N alpha beta A B _ ⟨h, h, sum1, .done⟩ _ _ _ _ s4
    have e1 : runRegion N alpha beta A B [1, 1] (startRegion [(0, h), (h, N)] ⟨j0, k0, C⟩)
        = some ⟨[⟨0, h, 0, .testI⟩, ⟨h, N, 0, .testJ⟩], ⟨0, k0, C⟩⟩ := r1
    rw [e1, Option.some_bind, r2, Option.some_bind, r3]
  · rfl
  · intro j hj
    show chunkVal N alpha beta A B (h + 1) (N - (h + 1)) (chunkVal N alpha beta A B 0 h C)
      (h * N + j) = C (h * N + j)
    rw [chunkVal_outside N alpha beta A B (h + 1) _ _ _
        (fun t _ => row_disjoint hj (by omega)),
      chunkVal_outside N alpha beta A B 0 _ _ _ (fun t ht => row_disjoint hj (by omega))]
  · intro i j hi hj hne
    show chunkVal N alpha beta A B (h + 1) (N - (h + 1)) (chunkVal N alpha beta A B 0 h C)
      (i * N + j) = alpha * innerSumVal N A B i j + beta * C (i * N + j)
    rcases Nat.lt_or_gt_of_ne hne with hlt | hgt
    · rw [chunkVal_outside N alpha beta A B (h + 1) _ _ _
          (fun t _ => row_disjoint hj (by omega)),
        chunkVal_inside N alpha beta A B 0 h C i j hj (by omega) (by omega)]
    · rw [chunkVal_inside N alpha beta A B (h + 1) _ _ i j hj (by omega) (by omega),
        chunkVal_outside N alpha beta A B 0 _ _ _ (fun t ht => row_disjoint hj (by omega))]

/-- The schedule on the matrices of the driver, A = 2.0, B = 0.5 and C = 1.0
throughout, with `alpha = beta = 1.0`: row `h` keeps 1.0, the other rows hold
`N + 1`, and the loop in program order leaves `N + 1` everywhere. -/
theorem raceSchedule_uniform (N h : ℕ) (hNN : N * N < 2 ^ 31) (hN : N + 1 ≤ 2 ^ 24)
    (h0 : 0 < h) (hh : h < N) (j0 k0 : ℕ) :
    ∃ st Cseq,
      runRegion N (⟨1⟩ : F32) ⟨1⟩ (fun _ => ⟨2⟩) (fun _ => ⟨1 / 2⟩) (raceSchedule N h)
          (startRegion [(0, h), (h, N)] ⟨j0, k0, fun _ => natF 24 1⟩) = some st
      ∧ st.workers.map Worker.pc = [Pc.done, Pc.done]
      ∧ (∀ j, j < N → st.shared.matrixC (h * N + j) = natF 24 1)
      ∧ (∀ i j, i < N → j < N → i ≠ h → st.shared.matrixC (i * N + j) = natF 24 (N + 1))
      ∧ sgemmRef N (⟨1⟩ : F32) ⟨1⟩ (fun _ => ⟨2⟩) (fun _ => ⟨1 / 2⟩) (fun _ => natF 24 1)
          = some Cseq
      ∧ (∀ p, p < N * N → Cseq p = natF 24 (N + 1)) := by
  have hval : ∀ p, p < N * N →
      sgemmRefVal N (⟨1⟩ : F32) ⟨1⟩ (fun _ => ⟨2⟩) (fun _ => ⟨1 / 2⟩) (fun _ => natF 24 1) p
        = natF 24 (N + 1) := by
    intro p hp
    rw [sgemmRefVal_step N 1 (by omega) (by norm_num) _ _ _ (fun _ _ => rfl) (fun _ _ => rfl)
      (fun _ _ => rfl) p hp, natF_add (by norm_num) N 1 hN]
  obtain ⟨st, hrun, hdone, hrow, hrest⟩ := raceSchedule_run N h (⟨1⟩ : F32) ⟨1⟩
    (fun _ => ⟨2⟩) (fun _ => ⟨1 / 2⟩) (fun _ => natF 24 1) hNN h0 hh j0 k0
  refine ⟨st, _, hrun, hdone, hrow, ?_, sgemmRef_eq N _ _ _ _ _ hNN, hval⟩
  intro i j hi hj hne
  rw [hrest i j hi hj hne, ← hval (i * N + j) (offset_lt hi hj), sgemmRefVal_apply,
    if_pos (offset_lt hi hj), offset_div hj, offset_mod hj]

/-- Claim C12 fails on the code. The pragma of line 139 makes only `sum`
private, so the workers of the region share `j` and `k`. For `N = 128` with two
workers that own the rows 0..63 and 64..127, under the schedule
`raceSchedule 128 64` both workers run to the end and row 64 of C is never
computed: its first and last cell keep 1.0, while the cells before and after
the row hold 129, and the loop in program order leaves 129 in row 64 too. -/
theorem sgemmRegion_race :
    ∃ st Cseq,
      runRegion 128 (⟨1⟩ : F32) ⟨1⟩ (fun _ => ⟨2⟩) (fun _ => ⟨1 / 2⟩) (raceSchedule 128 64)
          (startRegion [(0, 64), (64, 128)] ⟨128, 0, fun _ => natF 24 1⟩) = some st
      ∧ st.workers.map Worker.pc = [Pc.done, Pc.done]
      ∧ (st.shared.matrixC 8192).val = 1
      ∧ (st.shared.matrixC 8319).val = 1
      ∧ (st.shared.matrixC 8191).val = 129
      ∧ (st.shared.matrixC 8320).val = 129
      ∧ sgemmRef 128 (⟨1⟩ : F32) ⟨1⟩ (fun _ => ⟨2⟩) (fun _ => ⟨1 / 2⟩) (fun _ => natF 24 1)
          = some Cseq
      ∧ (Cseq 8192).val = 129 ∧ (Cseq 8319).val = 129 := by
  obtain ⟨st, Cseq, hrun, hdone, hrow, hrest, hseq, hval⟩ :=
    raceSchedule_uniform 128 64 (by norm_num) (by norm_num) (by norm_num) (by norm_num) 128 0
  have a1 := hrow 0 (by norm_num)
  have a2 := hrow 127 (by norm_num)
  have a3 := hrest 63 127 (by norm_num) (by norm_num) (by norm_num)
  have a4 := hrest 65 0 (by norm_num) (by norm_num) (by norm_num)
  have a5 := hval 8192 (by norm_num)
  have a6 := hval 8319 (by norm_num)
  norm_num at a1 a2 a3 a4
  refine ⟨st, Cseq, hrun, hdone, ?_, ?_, ?_, ?_, hseq, ?_, ?_⟩
  · rw [a1]; simp [natF]
  · rw [a2]; simp [natF]
  · rw [a3]; simp [natF]
  · rw [a4]; simp [natF]
  · rw [a5]; simp [natF]
  · rw [a6]; simp [natF]
end MtSgemm
